import Mathlib

/-
  Verification of the -gc-sections core of the mold linker
  (source file: gc_sections.cc).

  The development shallowly embeds the mark-sweep collector: sections,
  symbols, section fragments and exception-handling records are finite
  tables addressed by natural numbers; the mutable per-entity flags
  (InputSection.is_alive, InputSection.is_visited, SectionFragment.is_alive),
  the garbage_sections counter and the diagnostic output form an explicit
  state record that every operation threads.  The concurrent tbb loops of
  the source are modelled by their sequential schedules (file order, then
  slot order); the parallel_do work queue of the mark phase becomes an
  explicit worklist drained by a fueled loop, the fuel being an upper
  bound on the total number of dequeues that is proved sufficient.
-/

set_option maxHeartbeats 1000000

namespace Mold

/-- ELF section-type constants used by gc_sections (values as in the ELF
specification, included through mold.h / elf.h). -/
def SHT_NOTE : Nat := 7

def SHT_INIT_ARRAY : Nat := 14

def SHT_FINI_ARRAY : Nat := 15

def SHT_PREINIT_ARRAY : Nat := 16

/-- A symbol record (class Symbol).  `fileIdx` is the owning file
(sym->file), `inputSection` the defining input section (sym->input_section),
`frag` the section fragment (sym->frag), `isExported` sym->is_exported. -/
structure Symbol where
  fileIdx : Option Nat
  inputSection : Option Nat
  frag : Option Nat
  isExported : Bool

/-- An FDE record; `rels` holds the symbol ids of its EhRelocs.  The marker
only ever reads rel.sym.input_section of entries at index 1 and above. -/
structure FdeRecord where
  rels : List Nat

/-- A CIE record; `rels` holds the symbol ids of its EhRelocs. -/
structure CieRecord where
  rels : List Nat

/-- One InputSection: alloc = shdr.sh_flags & SHF_ALLOC, shType =
shdr.sh_type, `name` the section name as a character list, `fileIdx` the
owning object file (isec->file), `relFragments` the fragment ids of
rel_fragments, `rels` the r_sym indices of the ElfRela records (indices
into the owning file's symbol list). -/
structure SectionData where
  alloc : Bool
  shType : Nat
  name : List Char
  fileIdx : Nat
  relFragments : List Nat
  fdes : List FdeRecord
  rels : List Nat

instance : Inhabited SectionData := ⟨⟨true, 0, [], 0, [], [], []⟩⟩

/-- std::string_view::starts_with on character lists. -/
def strStartsWith : List Char → List Char → Bool
  | _, [] => true
  | [], _ :: _ => false
  | c :: s, d :: p => c == d && strStartsWith s p

/-- A section fragment; only its output section's SHF_ALLOC bit is read. -/
structure FragData where
  outputAlloc : Bool

/-- One ObjectFile: sparse section slots (null entries permitted), symbol
ids, fragment ids and CIE records. -/
structure ObjectFile where
  sections : List (Option Nat)
  symbols : List Nat
  fragments : List Nat
  cies : List CieRecord

/-- The linker context as far as gc_sections reads it: the object files,
the global section / symbol / fragment tables, the interned entry symbol,
the interned -u symbols, and the -print-gc-sections flag.  An absent
(`none`) interned symbol stands for a name that resolves to a symbol with
neither fragment nor input section, which contributes nothing. -/
structure Ctx where
  objs : List ObjectFile
  sections : List SectionData
  symbols : List Symbol
  frags : List FragData
  entrySym : Option Nat
  undefinedSyms : List (Option Nat)
  printGcSections : Bool

/-- The mutable state gc_sections operates on: per-section is_alive and
is_visited, per-fragment is_alive, the garbage_sections counter, and the
list of section ids printed by -print-gc-sections. -/
@[ext]
structure GcState where
  secAlive : Nat → Bool
  secVisited : Nat → Bool
  fragAlive : Nat → Bool
  garbageSections : Nat
  gcLog : List Nat

/-- Point update of a boolean table to `true`. -/
def setTrue (f : Nat → Bool) (i : Nat) : Nat → Bool :=
  fun j => if j = i then true else f j

/-- Point update of a boolean table to `false`. -/
def setFalse (f : Nat → Bool) (i : Nat) : Nat → Bool :=
  fun j => if j = i then false else f j

/-- Section lookup in the global table. -/
def secGet (ctx : Ctx) (i : Nat) : SectionData := ctx.sections.getD i default

/-- Symbol lookup in the global table; out of range gives the trivial
symbol (no file, no section, no fragment). -/
def symGet (ctx : Ctx) (s : Nat) : Symbol := ctx.symbols.getD s ⟨none, none, none, false⟩

/-- Fragment lookup. -/
def fragGet (ctx : Ctx) (f : Nat) : FragData := ctx.frags.getD f ⟨true⟩

/-- Object-file lookup. -/
def fileGet (ctx : Ctx) (f : Nat) : ObjectFile := ctx.objs.getD f ⟨[], [], [], []⟩

/-- isec->file.symbols[rel.r_sym]: resolve a relocation's symbol through
the owning file's symbol table. -/
def resolveSym (ctx : Ctx) (fi r : Nat) : Symbol :=
  match (fileGet ctx fi).symbols.get? r with
  | none => ⟨none, none, none, false⟩
  | some sid => symGet ctx sid

/-- is_init_fini from gc_sections.cc. -/
def is_init_fini (sec : SectionData) : Bool :=
  sec.shType == SHT_INIT_ARRAY || sec.shType == SHT_FINI_ARRAY ||
  sec.shType == SHT_PREINIT_ARRAY ||
  strStartsWith sec.name ".ctors".toList || strStartsWith sec.name ".dtors".toList ||
  strStartsWith sec.name ".init".toList || strStartsWith sec.name ".fini".toList

/-- mark_section: `isec && isec->is_alive && !isec->is_visited.exchange(true)`.
Returns whether the reference was accepted together with the state after
the test-and-set (the exchange writes `true` whenever is_alive holds). -/
def mark_section (st : GcState) (isec : Option Nat) : Bool × GcState :=
  match isec with
  | none => (false, st)
  | some i =>
    if st.secAlive i then
      (!st.secVisited i, { st with secVisited := setTrue st.secVisited i })
    else
      (false, st)

/-- `ref.frag->is_alive = true` for one fragment reference. -/
def setFrag (st : GcState) (fr : Nat) : GcState :=
  { st with fragAlive := setTrue st.fragAlive fr }

/-- The rel_fragments loop of visit: mark every referenced fragment alive. -/
def markFragList (st : GcState) (frs : List Nat) : GcState :=
  frs.foldl setFrag st

/-- One EhReloc of an FDE inside visit: if the symbol has an input section,
mark it, and on acceptance add it to the feeder. -/
def ehMarkStep (ctx : Ctx) (acc : GcState × List Nat) (rsym : Nat) : GcState × List Nat :=
  match (symGet ctx rsym).inputSection with
  | none => acc
  | some t =>
    let p := mark_section acc.1 (some t)
    if p.1 then (p.2, acc.2 ++ [t]) else (p.2, acc.2)

/-- One FDE inside visit: walk fde.rels from index 1 (subspan(1)). -/
def fdeStep (ctx : Ctx) (acc : GcState × List Nat) (fde : FdeRecord) : GcState × List Nat :=
  (fde.rels.drop 1).foldl (ehMarkStep ctx) acc

/-- One ElfRela of the visited section inside visit.  `rec?` is the inlined
recursive call of visit when the depth bound has not been reached, and
`none` when the accepted target must go to the feeder instead. -/
def relStep (ctx : Ctx) (rec? : Option (Nat → GcState → GcState × List Nat)) (fi : Nat)
    (acc : GcState × List Nat) (r : Nat) : GcState × List Nat :=
  let sym := resolveSym ctx fi r
  match sym.frag with
  | some fr => (setFrag acc.1 fr, acc.2)
  | none =>
    let p := mark_section acc.1 sym.inputSection
    if p.1 then
      match sym.inputSection with
      | some t =>
        match rec? with
        | some v =>
          let q := v t p.2
          (q.1, acc.2 ++ q.2)
        | none => (p.2, acc.2 ++ [t])
      | none => (p.2, acc.2)
    else
      (p.2, acc.2)

/-- The body of visit: rel_fragments, then FDEs, then relocations, in
source order.  Returns the new state and the sections handed to the
feeder. -/
def visitBody (ctx : Ctx) (rec? : Option (Nat → GcState → GcState × List Nat))
    (i : Nat) (st : GcState) : GcState × List Nat :=
  let sec := secGet ctx i
  let st1 := markFragList st sec.relFragments
  let acc := sec.fdes.foldl (fdeStep ctx) (st1, [])
  sec.rels.foldl (relStep ctx rec? sec.fileIdx) acc

/-- visit with the remaining inline-recursion allowance as fuel: the source
recurses while depth < 3 and otherwise calls feeder.add, so a call at
depth d has allowance 3 - d; fuel 0 is the pure feeder branch. -/
def visitGo (ctx : Ctx) : Nat → Nat → GcState → GcState × List Nat
  | 0, i, st => visitBody ctx none i st
  | fuel + 1, i, st => visitBody ctx (some (fun t st0 => visitGo ctx fuel t st0)) i st

/-- The drain loop of tbb::parallel_do: take a section off the worklist,
visit it (with inline-recursion allowance `bound`), append what it fed
back, repeat.  `fuel` bounds the number of dequeues. -/
def markLoop (ctx : Ctx) (bound : Nat) : Nat → List Nat → GcState → GcState
  | 0, _, st => st
  | _ + 1, [], st => st
  | fuel + 1, i :: rest, st =>
    let p := visitGo ctx bound i st
    markLoop ctx bound fuel (rest ++ p.2) p.1

/-- mark: parallel_do over the roots with visit at depth 0 (allowance 3).
The fuel |sections| + |roots| dominates the number of dequeues: every
queue element beyond the roots was freshly accepted, and each section is
accepted at most once. -/
def mark (ctx : Ctx) (roots : List Nat) (st : GcState) : GcState :=
  markLoop ctx 3 (ctx.sections.length + roots.length) roots st

/-- enqueue_section of collect_root_set: mark, and on acceptance push to
the root vector. -/
def enqueue_section (acc : GcState × List Nat) (os : Option Nat) : GcState × List Nat :=
  let p := mark_section acc.1 os
  if p.1 then
    match os with
    | some i => (p.2, acc.2 ++ [i])
    | none => (p.2, acc.2)
  else (p.2, acc.2)

/-- enqueue_symbol of collect_root_set: a fragment-backed symbol marks its
fragment alive, otherwise its input section is enqueued. -/
def enqueue_symbol (acc : GcState × List Nat) (sym? : Option Symbol) : GcState × List Nat :=
  match sym? with
  | none => acc
  | some sym =>
    match sym.frag with
    | some fr => (setFrag acc.1 fr, acc.2)
    | none => enqueue_section acc sym.inputSection

/-- One section slot of the first collect_root_set loop: non-alloc sections
get is_visited set unconditionally; init/fini/note sections are enqueued. -/
def scanAStep (ctx : Ctx) (acc : GcState × List Nat) (slot : Option Nat) : GcState × List Nat :=
  match slot with
  | none => acc
  | some i =>
    let sec := secGet ctx i
    let st :=
      if !sec.alloc then { acc.1 with secVisited := setTrue acc.1.secVisited i } else acc.1
    if is_init_fini sec || sec.shType == SHT_NOTE then
      enqueue_section (st, acc.2) (some i)
    else
      (st, acc.2)

/-- First collect_root_set loop (sections that are not subject to gc). -/
def scanA (ctx : Ctx) (acc : GcState × List Nat) : GcState × List Nat :=
  ctx.objs.foldl (fun a file => file.sections.foldl (scanAStep ctx) a) acc

/-- One symbol of the exported-symbols loop. -/
def scanBStep (ctx : Ctx) (fi : Nat) (acc : GcState × List Nat) (sid : Nat) :
    GcState × List Nat :=
  let sym := symGet ctx sid
  if sym.fileIdx == some fi && sym.isExported then
    enqueue_symbol acc (some sym)
  else acc

/-- Second collect_root_set loop (sections containing exported symbols). -/
def scanB (ctx : Ctx) (acc : GcState × List Nat) : GcState × List Nat :=
  ctx.objs.enum.foldl (fun a p => p.2.symbols.foldl (scanBStep ctx p.1) a) acc

/-- Third conceptual scan: the entry symbol and the -u symbols. -/
def scanC (ctx : Ctx) (acc : GcState × List Nat) : GcState × List Nat :=
  let acc1 := enqueue_symbol acc (ctx.entrySym.map (symGet ctx))
  ctx.undefinedSyms.foldl (fun a os => enqueue_symbol a (os.map (symGet ctx))) acc1

/-- Fourth collect_root_set loop (sections referenced from CIE records). -/
def scanD (ctx : Ctx) (acc : GcState × List Nat) : GcState × List Nat :=
  ctx.objs.foldl (fun a file =>
    file.cies.foldl (fun a2 cie =>
      cie.rels.foldl (fun a3 rsym => enqueue_section a3 (symGet ctx rsym).inputSection) a2) a) acc

/-- collect_root_set: the four scans in source order, producing the final
state and the root vector. -/
def collect_root_set (ctx : Ctx) (st : GcState) : GcState × List Nat :=
  scanD ctx (scanC ctx (scanB ctx (scanA ctx (st, []))))

/-- One section slot of sweep: a live, unvisited section is killed, the
counter is bumped, and with -print-gc-sections a diagnostic line (recorded
as the section id) is emitted. -/
def sweepStep (ctx : Ctx) (st : GcState) (slot : Option Nat) : GcState :=
  match slot with
  | none => st
  | some i =>
    if st.secAlive i && !st.secVisited i then
      { st with
        secAlive := setFalse st.secAlive i
        garbageSections := st.garbageSections + 1
        gcLog := if ctx.printGcSections then st.gcLog ++ [i] else st.gcLog }
    else st

/-- sweep: remove unreachable sections. -/
def sweep (ctx : Ctx) (st : GcState) : GcState :=
  ctx.objs.foldl (fun s file => file.sections.foldl (sweepStep ctx) s) st

/-- mark_nonalloc_fragments: fragments of non-alloc output sections are
marked alive unconditionally. -/
def mark_nonalloc_fragments (ctx : Ctx) (st : GcState) : GcState :=
  ctx.objs.foldl (fun s file =>
    file.fragments.foldl (fun s2 fr =>
      if !(fragGet ctx fr).outputAlloc then setFrag s2 fr else s2) s) st

/-- gc_sections: mark_nonalloc_fragments; collect_root_set; mark; sweep. -/
def gc_sections (ctx : Ctx) (st : GcState) : GcState :=
  let st0 := mark_nonalloc_fragments ctx st
  let p := collect_root_set ctx st0
  sweep ctx (mark ctx p.2 p.1)

/-- A section id occurs in some file's section list. -/
def listedSec (ctx : Ctx) (i : Nat) : Bool :=
  ctx.objs.any (fun f => f.sections.contains (some i))

/-- A listed section without the ALLOC flag: exactly the sections the first
collect_root_set loop removes from the marker's consideration. -/
def isNA (ctx : Ctx) (i : Nat) : Bool :=
  listedSec ctx i && !(secGet ctx i).alloc

/-- Root trigger of the first scan: a listed init/fini/ctors/dtors or note
section. -/
def trigA (ctx : Ctx) (i : Nat) : Bool :=
  listedSec ctx i && (is_init_fini (secGet ctx i) || (secGet ctx i).shType == SHT_NOTE)

/-- A symbol roots section `i` when it has no fragment and its input
section is `i`. -/
def symRootsSec (sym : Symbol) (i : Nat) : Bool :=
  sym.frag.isNone && sym.inputSection == some i

/-- Root trigger of the exported-symbols scan. -/
def trigB (ctx : Ctx) (i : Nat) : Bool :=
  ctx.objs.enum.any (fun p =>
    p.2.symbols.any (fun sid =>
      let sym := symGet ctx sid
      sym.fileIdx == some p.1 && sym.isExported && symRootsSec sym i))

/-- Root trigger of the entry / -u symbol scan. -/
def trigC (ctx : Ctx) (i : Nat) : Bool :=
  (ctx.entrySym :: ctx.undefinedSyms).any (fun os =>
    match os with
    | none => false
    | some sid => symRootsSec (symGet ctx sid) i)

/-- Root trigger of the CIE scan. -/
def trigD (ctx : Ctx) (i : Nat) : Bool :=
  ctx.objs.any (fun f => f.cies.any (fun cie =>
    cie.rels.any (fun rsym => (symGet ctx rsym).inputSection == some i)))

/-- All root triggers of collect_root_set. -/
def trig (ctx : Ctx) (i : Nat) : Bool :=
  trigA ctx i || trigB ctx i || trigC ctx i || trigD ctx i

/-- Fragments made alive directly by the root collector: fragments of
exported symbols, of the entry symbol, and of -u symbols. -/
def fragCandBC (ctx : Ctx) (fr : Nat) : Bool :=
  ctx.objs.enum.any (fun p =>
    p.2.symbols.any (fun sid =>
      let sym := symGet ctx sid
      sym.fileIdx == some p.1 && sym.isExported && sym.frag == some fr)) ||
  (ctx.entrySym :: ctx.undefinedSyms).any (fun os =>
    match os with
    | none => false
    | some sid => (symGet ctx sid).frag == some fr)

/-- FDE edge of the marker: some FDE of `s` has an EhReloc at index 1 or
above whose symbol's input section is `t`. -/
def fdeEdge (ctx : Ctx) (s t : Nat) : Prop :=
  ∃ fde ∈ (secGet ctx s).fdes, ∃ rsym ∈ fde.rels.drop 1,
    (symGet ctx rsym).inputSection = some t

/-- Relocation edge of the marker: some relocation of `s` resolves to a
fragment-less symbol whose input section is `t`. -/
def relEdge (ctx : Ctx) (s t : Nat) : Prop :=
  ∃ r ∈ (secGet ctx s).rels,
    (resolveSym ctx (secGet ctx s).fileIdx r).frag = none ∧
    (resolveSym ctx (secGet ctx s).fileIdx r).inputSection = some t

/-- A section-to-section edge of the marker. -/
def sedge (ctx : Ctx) (s t : Nat) : Prop := fdeEdge ctx s t ∨ relEdge ctx s t

/-- A section-to-fragment edge of the marker: a rel_fragments entry, or a
relocation resolving to a fragment-backed symbol. -/
def fragEdge (ctx : Ctx) (s fr : Nat) : Prop :=
  fr ∈ (secGet ctx s).relFragments ∨
  ∃ r ∈ (secGet ctx s).rels, (resolveSym ctx (secGet ctx s).fileIdx r).frag = some fr

/-- Marker reachability over an initial aliveness assignment: roots are
triggered alive alloc sections, and edges lead to alive alloc sections.
Sections the first scan pre-visits (listed non-alloc ones) are never
accepted by the mark primitive, so they neither root nor relay
reachability. -/
inductive Reaches (ctx : Ctx) (alive : Nat → Bool) : Nat → Prop where
  | root : ∀ i, trig ctx i = true → alive i = true → isNA ctx i = false →
      Reaches ctx alive i
  | step : ∀ s t, Reaches ctx alive s → sedge ctx s t → alive t = true →
      isNA ctx t = false → Reaches ctx alive t

/-- Relative reachability of the mark loop: what the worklist `Q` will
still accept, judged against a fixed state `st` (aliveness at `st`;
already-visited sections of `st` are neither accepted nor expanded). -/
inductive RF (ctx : Ctx) (st : GcState) (Q : List Nat) : Nat → Prop where
  | base : ∀ i, i ∈ Q → RF ctx st Q i
  | step : ∀ s t, RF ctx st Q s → sedge ctx s t → st.secAlive t = true →
      st.secVisited t = false → RF ctx st Q t

/-- Relative fragment reachability: fragments with an edge from a section
the worklist will process. -/
def FR (ctx : Ctx) (st : GcState) (Q : List Nat) (fr : Nat) : Prop :=
  ∃ s, RF ctx st Q s ∧ fragEdge ctx s fr

/-- The growth order of the mark phase: visited and fragment flags only
grow, section aliveness, the counter and the log are untouched. -/
def StLe (a b : GcState) : Prop :=
  (∀ i, a.secVisited i = true → b.secVisited i = true) ∧
  (∀ fr, a.fragAlive fr = true → b.fragAlive fr = true) ∧
  b.secAlive = a.secAlive ∧
  b.garbageSections = a.garbageSections ∧
  b.gcLog = a.gcLog

/-- All alive section-edge targets of `s` are visited in `st`. -/
def SatSec (ctx : Ctx) (st : GcState) (s : Nat) : Prop :=
  ∀ t, sedge ctx s t → st.secAlive t = true → st.secVisited t = true

/-- All fragment-edge targets of `s` are alive in `st`. -/
def SatFrag (ctx : Ctx) (st : GcState) (s : Nat) : Prop :=
  ∀ fr, fragEdge ctx s fr → st.fragAlive fr = true

/-- Number of alive-but-unvisited sections of the global table. -/
def uCount (ctx : Ctx) (st : GcState) : Nat :=
  ((Finset.range ctx.sections.length).filter
    (fun i => st.secAlive i = true ∧ st.secVisited i = false)).card

/-- Well-formedness of aliveness: only sections of the global table are
alive. -/
def HAlive (ctx : Ctx) (st : GcState) : Prop :=
  ∀ i, st.secAlive i = true → i < ctx.sections.length

/-- Everything a single visit call guarantees, relative to its input
state: monotone growth, freshness and visitedness of what it feeds back,
soundness of new visits and fragment marks (they are reachable from the
visited section), saturation of the visited section, saturation or
deferral of every newly visited section, and the worklist accounting. -/
structure MSpec (ctx : Ctx) (q : Nat) (st st2 : GcState) (out : List Nat) : Prop where
  le : StLe st st2
  out_vis : ∀ o ∈ out, st2.secVisited o = true ∧ st.secVisited o = false
  sound : ∀ i, st2.secVisited i = true → st.secVisited i = true ∨ RF ctx st [q] i
  fsound : ∀ fr, st2.fragAlive fr = true →
    st.fragAlive fr = true ∨ ∃ s, RF ctx st [q] s ∧ fragEdge ctx s fr
  satq : SatSec ctx st2 q ∧ SatFrag ctx st2 q
  defer : ∀ i, st2.secVisited i = true → st.secVisited i = false →
    i ∈ out ∨ (SatSec ctx st2 i ∧ SatFrag ctx st2 i)
  cnt : HAlive ctx st → uCount ctx st2 + out.length ≤ uCount ctx st

/-- The inlined recursive call handed to the relocation loop satisfies the
visit specification at every section and state. -/
def RSpec (ctx : Ctx) (v : Nat → GcState → GcState × List Nat) : Prop :=
  ∀ t st0, MSpec ctx t st0 (v t st0).1 (v t st0).2

/-- All section slots of all files, in the order of the first collect scan. -/
def scanAItems (ctx : Ctx) : List (Option Nat) :=
  (ctx.objs.map (fun f => f.sections)).flatten

/-- All (file index, symbol id) pairs of the exported-symbols scan. -/
def scanBItems (ctx : Ctx) : List (Nat × Nat) :=
  (ctx.objs.enum.map (fun p => p.2.symbols.map (fun sid => (p.1, sid)))).flatten

/-- The interned entry symbol followed by the interned -u symbols. -/
def scanCItems (ctx : Ctx) : List (Option Nat) :=
  ctx.entrySym :: ctx.undefinedSyms

/-- All EhReloc symbol ids of all CIE records of all files. -/
def scanDItems (ctx : Ctx) : List Nat :=
  (((ctx.objs.map (fun f => f.cies)).flatten).map (fun cie => cie.rels)).flatten

/-- Invariant of the root collector relative to its input state `st0`:
the state only grew, the root vector has no duplicates, every root is
visited, every root is a triggered, alive, previously unvisited, non-NA
section, and every visited section was visited before, is a listed
non-alloc section, or is in the root vector. -/
def CollInv (ctx : Ctx) (st0 : GcState) (acc : GcState × List Nat) : Prop :=
  StLe st0 acc.1 ∧
  acc.2.Nodup ∧
  (∀ r ∈ acc.2, acc.1.secVisited r = true) ∧
  (∀ r ∈ acc.2, trig ctx r = true ∧ st0.secAlive r = true ∧ st0.secVisited r = false ∧
    isNA ctx r = false) ∧
  (∀ i, acc.1.secVisited i = true →
    st0.secVisited i = true ∨ isNA ctx i = true ∨ i ∈ acc.2)

/-- The section ids of all files, in sweep order. -/
def sectionIds (ctx : Ctx) : List Nat :=
  (ctx.objs.map (fun f => f.sections.reduceOption)).flatten

/-- The sections sweep kills in `st`: listed, alive and unvisited. -/
def killList (ctx : Ctx) (st : GcState) : List Nat :=
  (sectionIds ctx).filter (fun i => st.secAlive i && !st.secVisited i)

/-- Two section records that agree on everything except possibly the heads
of their FDE relocation lists (the entries the marker skips). -/
def sameExceptFdeHeads (a b : SectionData) : Prop :=
  a.alloc = b.alloc ∧ a.shType = b.shType ∧ a.name = b.name ∧
  a.fileIdx = b.fileIdx ∧ a.relFragments = b.relFragments ∧ a.rels = b.rels ∧
  a.fdes.map (fun f => f.rels.drop 1) = b.fdes.map (fun f => f.rels.drop 1)

/-- A state on which gc_sections is a no-op: listed non-alloc sections are
visited, triggered alive sections are visited, root-collector fragments
and non-alloc fragments are alive, and listed alive sections are visited. -/
def Stable (ctx : Ctx) (st : GcState) : Prop :=
  (∀ i, isNA ctx i = true → st.secVisited i = true) ∧
  (∀ i, trig ctx i = true → st.secAlive i = true → st.secVisited i = true) ∧
  (∀ fr, fragCandBC ctx fr = true → st.fragAlive fr = true) ∧
  (∀ file ∈ ctx.objs, ∀ fr ∈ file.fragments,
    (fragGet ctx fr).outputAlloc = false → st.fragAlive fr = true) ∧
  (∀ i, listedSec ctx i = true → st.secAlive i = true → st.secVisited i = true)

/-- A context with one listed non-alloc section and no roots at all. -/
def c1CexCtx : Ctx :=
  { objs := [⟨[some 0], [], [], []⟩]
    sections := [⟨false, 1, [], 0, [], [], []⟩]
    symbols := []
    frags := []
    entrySym := none
    undefinedSyms := []
    printGcSections := false }

/-- Initial state for the C1 counterexample: section 0 alive, nothing visited. -/
def c1CexSt : GcState := ⟨fun j => j == 0, fun _ => false, fun _ => false, 0, []⟩

/-- A context with one alloc section reached from the entry symbol. -/
def c1WCtx : Ctx :=
  { objs := [⟨[some 0], [0], [], []⟩]
    sections := [⟨true, 1, [], 0, [], [], []⟩]
    symbols := [⟨some 0, some 0, none, true⟩]
    frags := []
    entrySym := some 0
    undefinedSyms := []
    printGcSections := false }

/-- Initial state for the C1 witness. -/
def c1WSt : GcState := ⟨fun j => j == 0, fun _ => false, fun _ => false, 0, []⟩

/-- Two alloc sections; used to exercise the sweep. -/
def c2Ctx : Ctx :=
  { objs := [⟨[some 0, some 1, none], [], [], []⟩]
    sections := [⟨true, 1, [], 0, [], [], []⟩, ⟨true, 1, [], 0, [], [], []⟩]
    symbols := []
    frags := []
    entrySym := none
    undefinedSyms := []
    printGcSections := true }

/-- Sweep input state: section 0 visited, section 1 alive but unvisited. -/
def c2St : GcState := ⟨fun j => j == 0 || j == 1, fun j => j == 0, fun _ => false, 5, [9]⟩

/-- An init-array section rooted through the first collect scan. -/
def c3Ctx : Ctx :=
  { objs := [⟨[some 0], [0], [], []⟩]
    sections := [⟨true, 14, [], 0, [], [], []⟩]
    symbols := [⟨some 0, some 0, none, true⟩]
    frags := []
    entrySym := some 0
    undefinedSyms := []
    printGcSections := false }

/-- Initial state for the C3 witness. -/
def c3St : GcState := ⟨fun _ => true, fun _ => false, fun _ => false, 0, []⟩

/-- One listed non-alloc section, no roots. -/
def c4Ctx : Ctx :=
  { objs := [⟨[some 0], [], [], []⟩]
    sections := [⟨false, 1, [], 0, [], [], []⟩]
    symbols := []
    frags := []
    entrySym := none
    undefinedSyms := []
    printGcSections := false }

/-- C4 counterexample state: the non-alloc section is already dead on entry. -/
def c4CexSt : GcState := ⟨fun _ => false, fun _ => false, fun _ => false, 0, []⟩

/-- C4 witness state: the non-alloc section is alive on entry. -/
def c4WSt : GcState := ⟨fun j => j == 0, fun _ => false, fun _ => false, 0, []⟩

/-- One section whose relocation 0 resolves to a fragment-backed symbol and
whose relocation 1 resolves to a section-defining symbol. -/
def c6Ctx : Ctx :=
  { objs := [⟨[some 0], [0, 1], [], []⟩]
    sections := [⟨true, 1, [], 0, [], [], [0]⟩]
    symbols := [⟨none, none, some 3, false⟩, ⟨none, some 0, none, false⟩]
    frags := []
    entrySym := none
    undefinedSyms := []
    printGcSections := false }

/-- Initial state for the C6 witness. -/
def c6St : GcState := ⟨fun j => j == 0, fun _ => false, fun _ => false, 0, []⟩

/-- The empty context. -/
def c7Ctx : Ctx :=
  { objs := []
    sections := []
    symbols := []
    frags := []
    entrySym := none
    undefinedSyms := []
    printGcSections := false }

/-- An everywhere-dead, nothing-visited state. -/
def c7St : GcState := ⟨fun _ => false, fun _ => false, fun _ => false, 0, []⟩

/-- One section with a self relocation, root vector [0]. -/
def c9Ctx : Ctx :=
  { objs := [⟨[some 0], [0], [], []⟩]
    sections := [⟨true, 1, [], 0, [], [], [0]⟩]
    symbols := [⟨some 0, some 0, none, false⟩]
    frags := []
    entrySym := none
    undefinedSyms := []
    printGcSections := false }

/-- State for the C9 witness: the only root already visited. -/
def c9St : GcState := ⟨fun j => j == 0, fun j => j == 0, fun _ => false, 0, []⟩

/-- One exported-symbol-rooted alloc section. -/
def c10Ctx : Ctx :=
  { objs := [⟨[some 0], [0], [], []⟩]
    sections := [⟨true, 1, [], 0, [], [], []⟩]
    symbols := [⟨some 0, some 0, none, true⟩]
    frags := []
    entrySym := some 0
    undefinedSyms := []
    printGcSections := false }

/-- Initial state for the C10 witness. -/
def c10St : GcState := ⟨fun j => j == 0, fun _ => false, fun _ => false, 0, []⟩

/-- A section with one FDE whose rels are [0, 1], plus its rels[1] target. -/
def c5Ctx1 : Ctx :=
  { objs := [⟨[some 0, some 1], [0, 1], [], []⟩]
    sections := [⟨true, 14, [], 0, [], [⟨[0, 1]⟩], []⟩, ⟨true, 1, [], 0, [], [], []⟩]
    symbols := [⟨none, some 0, none, false⟩, ⟨none, some 1, none, false⟩]
    frags := []
    entrySym := none
    undefinedSyms := []
    printGcSections := false }

/-- The same context with the FDE's rels[0] entry replaced by 2. -/
def c5Ctx2 : Ctx :=
  { objs := [⟨[some 0, some 1], [0, 1], [], []⟩]
    sections := [⟨true, 14, [], 0, [], [⟨[2, 1]⟩], []⟩, ⟨true, 1, [], 0, [], [], []⟩]
    symbols := [⟨none, some 0, none, false⟩, ⟨none, some 1, none, false⟩]
    frags := []
    entrySym := none
    undefinedSyms := []
    printGcSections := false }

/-- Initial state for the C5 witness. -/
def c5St : GcState := ⟨fun j => j == 0 || j == 1, fun _ => false, fun _ => false, 0, []⟩

theorem setTrue_self (f : Nat → Bool) (i : Nat) : setTrue f i i = true := by
  simp [setTrue]

theorem setTrue_of_ne (f : Nat → Bool) {i j : Nat} (h : j ≠ i) : setTrue f i j = f j := by
  simp [setTrue, h]

theorem setTrue_mono (f : Nat → Bool) (i : Nat) {j : Nat} (h : f j = true) :
    setTrue f i j = true := by
  by_cases hj : j = i <;> simp [setTrue, hj, h]

theorem setTrue_eq_true_iff {f : Nat → Bool} {i j : Nat} :
    setTrue f i j = true ↔ j = i ∨ f j = true := by
  by_cases hj : j = i <;> simp [setTrue, hj]

theorem setTrue_noop {f : Nat → Bool} {i : Nat} (h : f i = true) : setTrue f i = f := by
  funext j
  by_cases hj : j = i
  · subst hj; simp [setTrue, h]
  · simp [setTrue, hj]

theorem StLe.refl (a : GcState) : StLe a a :=
  ⟨fun _ h => h, fun _ h => h, Eq.refl _, Eq.refl _, Eq.refl _⟩

theorem StLe.trans {a b c : GcState} (h1 : StLe a b) (h2 : StLe b c) : StLe a c := by
  obtain ⟨v1, f1, a1, g1, l1⟩ := h1
  obtain ⟨v2, f2, a2, g2, l2⟩ := h2
  exact ⟨fun i h => v2 i (v1 i h), fun fr h => f2 fr (f1 fr h),
    a2.trans a1, g2.trans g1, l2.trans l1⟩

theorem StLe.alive {a b : GcState} (h : StLe a b) (i : Nat) : b.secAlive i = a.secAlive i := by
  rw [h.2.2.1]

theorem StLe.vis_false {a b : GcState} (h : StLe a b) {i : Nat}
    (hv : b.secVisited i = false) : a.secVisited i = false := by
  cases hva : a.secVisited i
  · rfl
  · rw [h.1 i hva] at hv; exact hv

theorem mark_section_none (st : GcState) : mark_section st none = (false, st) := rfl

theorem mark_section_dead {st : GcState} {i : Nat} (h : st.secAlive i = false) :
    mark_section st (some i) = (false, st) := by
  simp [mark_section, h]

theorem mark_section_alive {st : GcState} {i : Nat} (h : st.secAlive i = true) :
    mark_section st (some i) =
      (!st.secVisited i, { st with secVisited := setTrue st.secVisited i }) := by
  simp [mark_section, h]

theorem mark_section_le (st : GcState) (os : Option Nat) : StLe st (mark_section st os).2 := by
  match os with
  | none => exact StLe.refl st
  | some i =>
    cases h : st.secAlive i
    · rw [mark_section_dead h]; exact StLe.refl st
    · rw [mark_section_alive h]
      exact ⟨fun j hj => setTrue_mono _ _ hj, fun _ hf => hf, rfl, rfl, rfl⟩

theorem mark_section_fst_iff {st : GcState} {os : Option Nat} :
    (mark_section st os).1 = true ↔
      ∃ i, os = some i ∧ st.secAlive i = true ∧ st.secVisited i = false := by
  match os with
  | none => simp [mark_section]
  | some i =>
    cases h : st.secAlive i
    · rw [mark_section_dead h]; simp [h]
    · rw [mark_section_alive h]
      cases hv : st.secVisited i <;> simp [h, hv]

theorem mark_section_visited_after {st : GcState} {i : Nat} (h : st.secAlive i = true) :
    ((mark_section st (some i)).2).secVisited i = true := by
  rw [mark_section_alive h]
  exact setTrue_self _ _

theorem mark_section_vis_sound {st : GcState} {os : Option Nat} {j : Nat}
    (h : ((mark_section st os).2).secVisited j = true) :
    st.secVisited j = true ∨ (os = some j ∧ st.secAlive j = true ∧ st.secVisited j = false) := by
  match os with
  | none => exact Or.inl h
  | some i =>
    cases ha : st.secAlive i
    · rw [mark_section_dead ha] at h; exact Or.inl h
    · rw [mark_section_alive ha] at h
      simp only at h
      rcases setTrue_eq_true_iff.mp h with hji | hold
      · subst hji
        rcases Bool.eq_false_or_eq_true (st.secVisited j) with hv | hv
        · exact Or.inl hv
        · exact Or.inr ⟨rfl, ha, hv⟩
      · exact Or.inl hold

theorem uCount_congr {ctx : Ctx} {a b : GcState}
    (hA : ∀ j, b.secAlive j = a.secAlive j) (hV : ∀ j, b.secVisited j = a.secVisited j) :
    uCount ctx b = uCount ctx a := by
  unfold uCount
  congr 1
  apply Finset.filter_congr
  intro x _
  rw [hA, hV]

theorem uCount_le (ctx : Ctx) (st : GcState) : uCount ctx st ≤ ctx.sections.length := by
  unfold uCount
  calc ((Finset.range ctx.sections.length).filter _).card
      ≤ (Finset.range ctx.sections.length).card := Finset.card_filter_le _ _
    _ = ctx.sections.length := Finset.card_range _

theorem uCount_set {ctx : Ctx} {st : GcState} {i : Nat}
    (hn : i < ctx.sections.length) (ha : st.secAlive i = true) (hv : st.secVisited i = false) :
    uCount ctx { st with secVisited := setTrue st.secVisited i } + 1 ≤ uCount ctx st := by
  classical
  set s := (Finset.range ctx.sections.length).filter
    (fun j => st.secAlive j = true ∧ st.secVisited j = false) with hs
  have hi : i ∈ s := by
    rw [hs]; simp [Finset.mem_filter, Finset.mem_range, hn, ha, hv]
  have hsub : (Finset.range ctx.sections.length).filter
      (fun j => st.secAlive j = true ∧ setTrue st.secVisited i j = false) ⊆ s.erase i := by
    intro j hj
    rw [Finset.mem_filter, Finset.mem_range] at hj
    obtain ⟨h1, h2, h3⟩ := hj
    have hji : j ≠ i := by
      intro e; subst e; rw [setTrue_self] at h3; exact Bool.noConfusion h3
    rw [Finset.mem_erase, hs, Finset.mem_filter, Finset.mem_range]
    rw [setTrue_of_ne _ hji] at h3
    exact ⟨hji, h1, h2, h3⟩
  have h1 : uCount ctx { st with secVisited := setTrue st.secVisited i } ≤ (s.erase i).card :=
    Finset.card_le_card hsub
  have h2 : (s.erase i).card = s.card - 1 := Finset.card_erase_of_mem hi
  have h3 : 1 ≤ s.card := Finset.card_pos.mpr ⟨i, hi⟩
  have h4 : uCount ctx st = s.card := rfl
  omega

theorem HAlive_of_le {ctx : Ctx} {a b : GcState} (h : StLe a b) (ha : HAlive ctx a) :
    HAlive ctx b := by
  intro i hi
  exact ha i (by rw [← h.alive i]; exact hi)

theorem RF_monoQ {ctx : Ctx} {st : GcState} {Q Q2 : List Nat} (hQ : ∀ x ∈ Q, x ∈ Q2) {i : Nat}
    (h : RF ctx st Q i) : RF ctx st Q2 i := by
  induction h with
  | base i hi => exact RF.base i (hQ i hi)
  | step s t _ he ha hv ih => exact RF.step s t ih he ha hv

theorem RF_nil {ctx : Ctx} {st : GcState} {i : Nat} (h : RF ctx st [] i) : False := by
  induction h with
  | base i hi => simp at hi
  | step _ _ _ _ _ _ ih => exact ih

theorem RF_state_anti {ctx : Ctx} {a b : GcState} (hle : StLe a b) {Q : List Nat} {i : Nat}
    (h : RF ctx b Q i) : RF ctx a Q i := by
  induction h with
  | base i hi => exact RF.base i hi
  | step s t _ he ha hv ih =>
    exact RF.step s t ih he (by rw [← hle.alive t]; exact ha) (hle.vis_false hv)

theorem RF_absorb {ctx : Ctx} {a b : GcState} (hle : StLe a b) {Q : List Nat} {t : Nat}
    (ht : RF ctx a Q t) {s : Nat} (h : RF ctx b [t] s) : RF ctx a Q s := by
  induction h with
  | base i hi =>
    have he : i = t := by simpa using hi
    subst he; exact ht
  | step s1 s2 _ he ha hv ih =>
    exact RF.step s1 s2 ih he (by rw [← hle.alive s2]; exact ha) (hle.vis_false hv)

theorem SatSec_mono {ctx : Ctx} {a b : GcState} {s : Nat} (hle : StLe a b)
    (h : SatSec ctx a s) : SatSec ctx b s := by
  intro t he ha
  exact hle.1 t (h t he (by rw [← hle.alive t]; exact ha))

theorem SatFrag_mono {ctx : Ctx} {a b : GcState} {s : Nat} (hle : StLe a b)
    (h : SatFrag ctx a s) : SatFrag ctx b s := by
  intro fr he
  exact hle.2.1 fr (h fr he)

theorem markFragList_same (frs : List Nat) (st : GcState) :
    (markFragList st frs).secVisited = st.secVisited ∧
    (markFragList st frs).secAlive = st.secAlive ∧
    (markFragList st frs).garbageSections = st.garbageSections ∧
    (markFragList st frs).gcLog = st.gcLog := by
  induction frs generalizing st with
  | nil => exact ⟨rfl, rfl, rfl, rfl⟩
  | cons x xs ih => simpa [markFragList, setFrag] using ih (setFrag st x)

theorem markFragList_le (frs : List Nat) (st : GcState) : StLe st (markFragList st frs) := by
  induction frs generalizing st with
  | nil => exact StLe.refl st
  | cons x xs ih =>
    have h1 : StLe st (setFrag st x) :=
      ⟨fun _ h => h, fun _ h => setTrue_mono _ _ h, rfl, rfl, rfl⟩
    exact h1.trans (ih (setFrag st x))

theorem markFragList_frag_sound {frs : List Nat} {st : GcState} {fr : Nat}
    (h : (markFragList st frs).fragAlive fr = true) :
    st.fragAlive fr = true ∨ fr ∈ frs := by
  induction frs generalizing st with
  | nil => exact Or.inl h
  | cons x xs ih =>
    rcases @ih (setFrag st x) h with h2 | h2
    · rcases setTrue_eq_true_iff.mp h2 with h3 | h3
      · exact Or.inr (by simp [h3])
      · exact Or.inl h3
    · exact Or.inr (by simp [h2])

theorem markFragList_frag_cov {frs : List Nat} {st : GcState} {fr : Nat} (h : fr ∈ frs) :
    (markFragList st frs).fragAlive fr = true := by
  induction frs generalizing st with
  | nil => simp at h
  | cons x xs ih =>
    rcases List.mem_cons.mp h with h2 | h2
    · subst h2
      have hx : (setFrag st fr).fragAlive fr = true := setTrue_self _ _
      exact (markFragList_le xs (setFrag st fr)).2.1 fr hx
    · exact ih h2

theorem ehMarkStep_le (ctx : Ctx) (acc : GcState × List Nat) (rsym : Nat) :
    StLe acc.1 (ehMarkStep ctx acc rsym).1 ∧
    (∃ add, (ehMarkStep ctx acc rsym).2 = acc.2 ++ add) ∧
    (ehMarkStep ctx acc rsym).1.fragAlive = acc.1.fragAlive := by
  cases h : (symGet ctx rsym).inputSection with
  | none =>
    have he : ehMarkStep ctx acc rsym = acc := by simp [ehMarkStep, h]
    rw [he]
    exact ⟨StLe.refl _, ⟨[], by simp⟩, rfl⟩
  | some t =>
    have hle := mark_section_le acc.1 (some t)
    have hfr : (mark_section acc.1 (some t)).2.fragAlive = acc.1.fragAlive := by
      cases ha : acc.1.secAlive t
      · rw [mark_section_dead ha]
      · rw [mark_section_alive ha]
    cases hp : (mark_section acc.1 (some t)).1
    · simp only [ehMarkStep, h, hp, Bool.false_eq_true, if_false]
      exact ⟨hle, ⟨[], by simp⟩, hfr⟩
    · simp only [ehMarkStep, h, hp, if_true]
      exact ⟨hle, ⟨[t], rfl⟩, hfr⟩

theorem ehFold_le (ctx : Ctx) (rs : List Nat) (acc : GcState × List Nat) :
    StLe acc.1 (rs.foldl (ehMarkStep ctx) acc).1 ∧
    (∃ add, (rs.foldl (ehMarkStep ctx) acc).2 = acc.2 ++ add) ∧
    (rs.foldl (ehMarkStep ctx) acc).1.fragAlive = acc.1.fragAlive := by
  induction rs generalizing acc with
  | nil => exact ⟨StLe.refl _, ⟨[], by simp⟩, rfl⟩
  | cons x xs ih =>
    obtain ⟨le1, ⟨a1, he1⟩, hf1⟩ := ehMarkStep_le ctx acc x
    obtain ⟨le2, ⟨a2, he2⟩, hf2⟩ := ih (ehMarkStep ctx acc x)
    simp only [List.foldl_cons]
    exact ⟨le1.trans le2, ⟨a1 ++ a2, by simp [he2, he1]⟩, by rw [hf2, hf1]⟩

theorem ehMarkStep_none {ctx : Ctx} {acc : GcState × List Nat} {rsym : Nat}
    (h : (symGet ctx rsym).inputSection = none) : ehMarkStep ctx acc rsym = acc := by
  simp [ehMarkStep, h]

theorem ehMarkStep_fst_state {ctx : Ctx} {acc : GcState × List Nat} {rsym t : Nat}
    (h : (symGet ctx rsym).inputSection = some t) :
    (ehMarkStep ctx acc rsym).1 = (mark_section acc.1 (some t)).2 := by
  cases hp : (mark_section acc.1 (some t)).1 <;> simp [ehMarkStep, h, hp]

theorem ehMarkStep_snd {ctx : Ctx} {acc : GcState × List Nat} {rsym t : Nat}
    (h : (symGet ctx rsym).inputSection = some t) :
    (ehMarkStep ctx acc rsym).2 =
      if (mark_section acc.1 (some t)).1 then acc.2 ++ [t] else acc.2 := by
  cases hp : (mark_section acc.1 (some t)).1 <;> simp [ehMarkStep, h, hp]

theorem ehMarkStep_vis_sound {ctx : Ctx} {acc : GcState × List Nat} {rsym j : Nat}
    (h : (ehMarkStep ctx acc rsym).1.secVisited j = true) :
    acc.1.secVisited j = true ∨
      ((symGet ctx rsym).inputSection = some j ∧ acc.1.secAlive j = true ∧
        acc.1.secVisited j = false) := by
  cases h0 : (symGet ctx rsym).inputSection with
  | none => rw [ehMarkStep_none h0] at h; exact Or.inl h
  | some t =>
    rw [ehMarkStep_fst_state h0] at h
    rcases mark_section_vis_sound h with h1 | ⟨h1, h2, h3⟩
    · exact Or.inl h1
    · have ht : t = j := Option.some.inj h1
      subst ht
      exact Or.inr ⟨rfl, h2, h3⟩

theorem ehMarkStep_out {ctx : Ctx} {acc : GcState × List Nat} {rsym : Nat} :
    ∀ o ∈ (ehMarkStep ctx acc rsym).2, o ∈ acc.2 ∨
      ((ehMarkStep ctx acc rsym).1.secVisited o = true ∧ acc.1.secVisited o = false) := by
  intro o ho
  cases h0 : (symGet ctx rsym).inputSection with
  | none => rw [ehMarkStep_none h0] at ho; exact Or.inl ho
  | some t =>
    rw [ehMarkStep_snd h0] at ho
    cases hp : (mark_section acc.1 (some t)).1
    · rw [hp] at ho; simp only [Bool.false_eq_true, if_false] at ho; exact Or.inl ho
    · rw [hp] at ho
      simp only [if_true, List.mem_append, List.mem_singleton] at ho
      rcases ho with ho | ho
      · exact Or.inl ho
      · subst ho
        obtain ⟨i, hi, ha, hv⟩ := mark_section_fst_iff.mp hp
        have ht : i = o := Option.some.inj hi.symm
        subst ht
        refine Or.inr ⟨?_, hv⟩
        rw [ehMarkStep_fst_state h0]
        exact mark_section_visited_after ha

theorem ehMarkStep_new_out {ctx : Ctx} {acc : GcState × List Nat} {rsym j : Nat}
    (hv : (ehMarkStep ctx acc rsym).1.secVisited j = true)
    (hnv : acc.1.secVisited j = false) : j ∈ (ehMarkStep ctx acc rsym).2 := by
  rcases ehMarkStep_vis_sound hv with h1 | ⟨h1, h2, h3⟩
  · rw [h1] at hnv; exact Bool.noConfusion hnv
  · rw [ehMarkStep_snd h1]
    rw [mark_section_alive h2, h3]
    simp

theorem ehMarkStep_cov {ctx : Ctx} {acc : GcState × List Nat} {rsym t : Nat}
    (h : (symGet ctx rsym).inputSection = some t)
    (ha : acc.1.secAlive t = true) :
    (ehMarkStep ctx acc rsym).1.secVisited t = true := by
  rw [ehMarkStep_fst_state h]
  exact mark_section_visited_after ha

theorem ehMarkStep_cnt {ctx : Ctx} {acc : GcState × List Nat} {rsym : Nat}
    (HA : HAlive ctx acc.1) :
    uCount ctx (ehMarkStep ctx acc rsym).1 + (ehMarkStep ctx acc rsym).2.length ≤
      uCount ctx acc.1 + acc.2.length := by
  cases h0 : (symGet ctx rsym).inputSection with
  | none => rw [ehMarkStep_none h0]
  | some t =>
    rw [ehMarkStep_fst_state h0, ehMarkStep_snd h0]
    cases ha : acc.1.secAlive t
    · rw [mark_section_dead ha]; simp
    · cases hv : acc.1.secVisited t
      · rw [mark_section_alive ha]
        simp only [hv, Bool.not_false, if_true, List.length_append, List.length_singleton]
        have := uCount_set (HA t ha) ha hv
        omega
      · rw [mark_section_alive ha]
        simp only [hv, Bool.not_true, Bool.false_eq_true, if_false]
        have hc : uCount ctx { acc.1 with secVisited := setTrue acc.1.secVisited t } =
            uCount ctx acc.1 := by
          apply uCount_congr
          · intro j; rfl
          · intro j
            show setTrue acc.1.secVisited t j = acc.1.secVisited j
            rw [setTrue_noop hv]
        exact Nat.add_le_add_right (Nat.le_of_eq hc) _

theorem ehFold_sound {ctx : Ctx} {q : Nat} {st : GcState} (rs : List Nat)
    (acc : GcState × List Nat) (Hst : StLe st acc.1)
    (Hrs : ∀ rsym ∈ rs, ∀ t, (symGet ctx rsym).inputSection = some t → sedge ctx q t) :
    ∀ j, (rs.foldl (ehMarkStep ctx) acc).1.secVisited j = true →
      acc.1.secVisited j = true ∨ RF ctx st [q] j := by
  induction rs generalizing acc with
  | nil => exact fun j h => Or.inl h
  | cons x xs ih =>
    intro j h
    simp only [List.foldl_cons] at h
    have Hst1 : StLe st (ehMarkStep ctx acc x).1 := Hst.trans (ehMarkStep_le ctx acc x).1
    rcases ih (ehMarkStep ctx acc x) Hst1 (fun r hr => Hrs r (List.mem_cons_of_mem x hr)) j h
      with h1 | h1
    · rcases ehMarkStep_vis_sound h1 with h2 | ⟨h2, h3, h4⟩
      · exact Or.inl h2
      · refine Or.inr (RF.step q j (RF.base q (by simp)) (Hrs x (by simp) j h2) ?_ ?_)
        · rw [← Hst.alive j]; exact h3
        · exact Hst.vis_false h4
    · exact Or.inr h1

theorem ehFold_out {ctx : Ctx} (rs : List Nat) (acc : GcState × List Nat) :
    ∀ o ∈ (rs.foldl (ehMarkStep ctx) acc).2, o ∈ acc.2 ∨
      ((rs.foldl (ehMarkStep ctx) acc).1.secVisited o = true ∧
        acc.1.secVisited o = false) := by
  induction rs generalizing acc with
  | nil => exact fun o ho => Or.inl ho
  | cons x xs ih =>
    intro o ho
    simp only [List.foldl_cons] at ho ⊢
    rcases ih (ehMarkStep ctx acc x) o ho with h1 | ⟨h1, h2⟩
    · rcases ehMarkStep_out o h1 with h2 | ⟨h2, h3⟩
      · exact Or.inl h2
      · refine Or.inr ⟨?_, h3⟩
        exact (ehFold_le ctx xs (ehMarkStep ctx acc x)).1.1 o h2
    · refine Or.inr ⟨h1, ?_⟩
      exact (ehMarkStep_le ctx acc x).1.vis_false h2

theorem ehFold_new_out {ctx : Ctx} (rs : List Nat) (acc : GcState × List Nat) :
    ∀ j, (rs.foldl (ehMarkStep ctx) acc).1.secVisited j = true →
      acc.1.secVisited j = false → j ∈ (rs.foldl (ehMarkStep ctx) acc).2 := by
  induction rs generalizing acc with
  | nil =>
    intro j h hn
    simp only [List.foldl_nil] at h
    rw [h] at hn; exact Bool.noConfusion hn
  | cons x xs ih =>
    intro j h hn
    simp only [List.foldl_cons] at h ⊢
    cases h1 : (ehMarkStep ctx acc x).1.secVisited j
    · exact ih (ehMarkStep ctx acc x) j h h1
    · have hj : j ∈ (ehMarkStep ctx acc x).2 := ehMarkStep_new_out h1 hn
      obtain ⟨add, hadd⟩ := (ehFold_le ctx xs (ehMarkStep ctx acc x)).2.1
      rw [hadd]
      exact List.mem_append_left add hj

theorem ehFold_cov {ctx : Ctx} (rs : List Nat) (acc : GcState × List Nat) :
    ∀ rsym ∈ rs, ∀ t, (symGet ctx rsym).inputSection = some t →
      (rs.foldl (ehMarkStep ctx) acc).1.secAlive t = true →
      (rs.foldl (ehMarkStep ctx) acc).1.secVisited t = true := by
  induction rs generalizing acc with
  | nil => intro rsym h; simp at h
  | cons x xs ih =>
    intro rsym hmem t hsome halive
    simp only [List.foldl_cons] at halive ⊢
    rcases List.mem_cons.mp hmem with h1 | h1
    · subst h1
      have ha : acc.1.secAlive t = true := by
        rw [← (ehMarkStep_le ctx acc rsym).1.alive t]
        rw [← (ehFold_le ctx xs (ehMarkStep ctx acc rsym)).1.alive t]
        exact halive
      have := ehMarkStep_cov hsome ha
      exact (ehFold_le ctx xs (ehMarkStep ctx acc rsym)).1.1 t this
    · exact ih (ehMarkStep ctx acc x) rsym h1 t hsome halive

theorem ehFold_cnt {ctx : Ctx} (rs : List Nat) (acc : GcState × List Nat)
    (HA : HAlive ctx acc.1) :
    uCount ctx (rs.foldl (ehMarkStep ctx) acc).1 + (rs.foldl (ehMarkStep ctx) acc).2.length ≤
      uCount ctx acc.1 + acc.2.length := by
  induction rs generalizing acc with
  | nil => exact Nat.le_refl _
  | cons x xs ih =>
    simp only [List.foldl_cons]
    have h1 := @ehMarkStep_cnt ctx acc x HA
    have h2 := ih (ehMarkStep ctx acc x) (HAlive_of_le (ehMarkStep_le ctx acc x).1 HA)
    omega

theorem fdeFold_eq (ctx : Ctx) (fdes : List FdeRecord) (acc : GcState × List Nat) :
    fdes.foldl (fdeStep ctx) acc =
      ((fdes.map (fun f => f.rels.drop 1)).flatten).foldl (ehMarkStep ctx) acc := by
  rw [List.foldl_flatten, List.foldl_map]
  rfl

theorem mem_fdeFlat {fdes : List FdeRecord} {rsym : Nat} :
    rsym ∈ (fdes.map (fun f => f.rels.drop 1)).flatten ↔
      ∃ fde ∈ fdes, rsym ∈ fde.rels.drop 1 := by
  simp only [List.mem_flatten, List.mem_map]
  constructor
  · rintro ⟨l, ⟨fde, hfde, rfl⟩, hr⟩
    exact ⟨fde, hfde, hr⟩
  · rintro ⟨fde, hfde, hr⟩
    exact ⟨fde.rels.drop 1, ⟨fde, hfde, rfl⟩, hr⟩

theorem mark_section_reject_vis {st : GcState} {os : Option Nat}
    (h : (mark_section st os).1 = false) :
    ∀ j, (mark_section st os).2.secVisited j = st.secVisited j := by
  intro j
  match os with
  | none => rfl
  | some i =>
    cases ha : st.secAlive i
    · rw [mark_section_dead ha]
    · rw [mark_section_alive ha] at h ⊢
      simp only at h ⊢
      have hv : st.secVisited i = true := by
        cases hv : st.secVisited i
        · rw [hv] at h; exact Bool.noConfusion h
        · rfl
      rw [setTrue_noop hv]

theorem relStep_of_frag {ctx : Ctx} {rec? : Option (Nat → GcState → GcState × List Nat)}
    {fi : Nat} {acc : GcState × List Nat} {r fr : Nat}
    (h : (resolveSym ctx fi r).frag = some fr) :
    relStep ctx rec? fi acc r = (setFrag acc.1 fr, acc.2) := by
  simp [relStep, h]

theorem relStep_of_reject {ctx : Ctx} {rec? : Option (Nat → GcState → GcState × List Nat)}
    {fi : Nat} {acc : GcState × List Nat} {r : Nat}
    (hf : (resolveSym ctx fi r).frag = none)
    (hp : (mark_section acc.1 (resolveSym ctx fi r).inputSection).1 = false) :
    relStep ctx rec? fi acc r =
      ((mark_section acc.1 (resolveSym ctx fi r).inputSection).2, acc.2) := by
  cases ht : (resolveSym ctx fi r).inputSection with
  | none => simp [relStep, hf, ht, mark_section_none]
  | some t =>
    rw [ht] at hp
    simp [relStep, hf, ht, hp]

theorem relStep_of_accept_none {ctx : Ctx} {fi : Nat} {acc : GcState × List Nat} {r t : Nat}
    (hf : (resolveSym ctx fi r).frag = none)
    (ht : (resolveSym ctx fi r).inputSection = some t)
    (hp : (mark_section acc.1 (some t)).1 = true) :
    relStep ctx none fi acc r = ((mark_section acc.1 (some t)).2, acc.2 ++ [t]) := by
  simp [relStep, hf, ht, hp]

theorem relStep_of_accept_some {ctx : Ctx} {v : Nat → GcState → GcState × List Nat}
    {fi : Nat} {acc : GcState × List Nat} {r t : Nat}
    (hf : (resolveSym ctx fi r).frag = none)
    (ht : (resolveSym ctx fi r).inputSection = some t)
    (hp : (mark_section acc.1 (some t)).1 = true) :
    relStep ctx (some v) fi acc r =
      ((v t (mark_section acc.1 (some t)).2).1,
        acc.2 ++ (v t (mark_section acc.1 (some t)).2).2) := by
  simp [relStep, hf, ht, hp]

theorem relStep_cases (ctx : Ctx) (rec? : Option (Nat → GcState → GcState × List Nat))
    (fi : Nat) (acc : GcState × List Nat) (r : Nat) :
    (∃ fr, (resolveSym ctx fi r).frag = some fr ∧
        relStep ctx rec? fi acc r = (setFrag acc.1 fr, acc.2)) ∨
    ((resolveSym ctx fi r).frag = none ∧
      (mark_section acc.1 (resolveSym ctx fi r).inputSection).1 = false ∧
      relStep ctx rec? fi acc r =
        ((mark_section acc.1 (resolveSym ctx fi r).inputSection).2, acc.2)) ∨
    (∃ t, (resolveSym ctx fi r).frag = none ∧
      (resolveSym ctx fi r).inputSection = some t ∧
      acc.1.secAlive t = true ∧ acc.1.secVisited t = false ∧
      ((rec? = none ∧
          relStep ctx rec? fi acc r = ((mark_section acc.1 (some t)).2, acc.2 ++ [t])) ∨
       (∃ v, rec? = some v ∧ relStep ctx rec? fi acc r =
          ((v t (mark_section acc.1 (some t)).2).1,
            acc.2 ++ (v t (mark_section acc.1 (some t)).2).2)))) := by
  cases hf : (resolveSym ctx fi r).frag with
  | some fr => exact Or.inl ⟨fr, rfl, relStep_of_frag hf⟩
  | none =>
    cases hp : (mark_section acc.1 (resolveSym ctx fi r).inputSection).1 with
    | false => exact Or.inr (Or.inl ⟨rfl, rfl, relStep_of_reject hf hp⟩)
    | true =>
      obtain ⟨t, ht, ha, hv⟩ := mark_section_fst_iff.mp hp
      rw [ht] at hp
      refine Or.inr (Or.inr ⟨t, rfl, ht, ha, hv, ?_⟩)
      cases rec? with
      | none => exact Or.inl ⟨rfl, relStep_of_accept_none hf ht hp⟩
      | some v => exact Or.inr ⟨v, rfl, relStep_of_accept_some hf ht hp⟩

theorem setFrag_le (st : GcState) (fr : Nat) : StLe st (setFrag st fr) :=
  ⟨fun _ h => h, fun _ h => setTrue_mono _ _ h, rfl, rfl, rfl⟩

theorem mark_section_frag_eq (st : GcState) (os : Option Nat) :
    (mark_section st os).2.fragAlive = st.fragAlive := by
  match os with
  | none => rfl
  | some i =>
    cases ha : st.secAlive i
    · rw [mark_section_dead ha]
    · rw [mark_section_alive ha]

theorem relStep_le_one {ctx : Ctx} {rec? : Option (Nat → GcState → GcState × List Nat)}
    {fi : Nat} (acc : GcState × List Nat) (r : Nat)
    (HR : ∀ v, rec? = some v → RSpec ctx v) :
    StLe acc.1 (relStep ctx rec? fi acc r).1 ∧
    ∃ add, (relStep ctx rec? fi acc r).2 = acc.2 ++ add := by
  rcases relStep_cases ctx rec? fi acc r with ⟨fr, hf, heq⟩ | ⟨hf, hp, heq⟩ |
    ⟨t, hf, ht, ha, hv, hcase⟩
  · rw [heq]; exact ⟨setFrag_le _ _, ⟨[], by simp⟩⟩
  · rw [heq]; exact ⟨mark_section_le _ _, ⟨[], by simp⟩⟩
  · rcases hcase with ⟨hrec, heq⟩ | ⟨v, hrec, heq⟩
    · rw [heq]; exact ⟨mark_section_le _ _, ⟨[t], rfl⟩⟩
    · rw [heq]
      have hm := HR v hrec t (mark_section acc.1 (some t)).2
      exact ⟨(mark_section_le _ _).trans hm.le, ⟨_, rfl⟩⟩

theorem relFold_le {ctx : Ctx} {rec? : Option (Nat → GcState → GcState × List Nat)}
    {fi : Nat} (rs : List Nat) (acc : GcState × List Nat)
    (HR : ∀ v, rec? = some v → RSpec ctx v) :
    StLe acc.1 (rs.foldl (relStep ctx rec? fi) acc).1 ∧
    ∃ add, (rs.foldl (relStep ctx rec? fi) acc).2 = acc.2 ++ add := by
  induction rs generalizing acc with
  | nil => exact ⟨StLe.refl _, ⟨[], by simp⟩⟩
  | cons x xs ih =>
    obtain ⟨le1, ⟨a1, he1⟩⟩ := relStep_le_one acc x HR
    obtain ⟨le2, ⟨a2, he2⟩⟩ := ih (relStep ctx rec? fi acc x)
    simp only [List.foldl_cons]
    exact ⟨le1.trans le2, ⟨a1 ++ a2, by simp [he2, he1]⟩⟩

theorem rf_accept_target {ctx : Ctx} {q : Nat} {st : GcState} {acc : GcState × List Nat}
    {x t : Nat} (Hst : StLe st acc.1) (hx : x ∈ (secGet ctx q).rels)
    (hf : (resolveSym ctx (secGet ctx q).fileIdx x).frag = none)
    (ht : (resolveSym ctx (secGet ctx q).fileIdx x).inputSection = some t)
    (ha : acc.1.secAlive t = true) (hv : acc.1.secVisited t = false) :
    RF ctx st [q] t := by
  refine RF.step q t (RF.base q (by simp)) (Or.inr ⟨x, hx, hf, ht⟩) ?_ (Hst.vis_false hv)
  rw [← Hst.alive t]; exact ha

theorem relFold_sound {ctx : Ctx} {q : Nat} {st : GcState}
    {rec? : Option (Nat → GcState → GcState × List Nat)}
    (HR : ∀ v, rec? = some v → RSpec ctx v)
    (rs : List Nat) (acc : GcState × List Nat)
    (Hsub : ∀ x ∈ rs, x ∈ (secGet ctx q).rels)
    (Hst : StLe st acc.1) :
    ∀ j, (rs.foldl (relStep ctx rec? (secGet ctx q).fileIdx) acc).1.secVisited j = true →
      acc.1.secVisited j = true ∨ RF ctx st [q] j := by
  induction rs generalizing acc with
  | nil => exact fun j h => Or.inl h
  | cons x xs ih =>
    intro j h
    simp only [List.foldl_cons] at h
    set acc1 := relStep ctx rec? (secGet ctx q).fileIdx acc x with hacc1
    have Hst1 : StLe st acc1.1 := Hst.trans (relStep_le_one acc x HR).1
    rcases ih acc1 (fun y hy => Hsub y (List.mem_cons_of_mem x hy)) Hst1 j h with h1 | h1
    · rcases relStep_cases ctx rec? (secGet ctx q).fileIdx acc x with ⟨fr, hf, heq⟩ |
        ⟨hf, hp, heq⟩ | ⟨t, hf, ht, ha, hv, hcase⟩
      · rw [hacc1, heq] at h1
        exact Or.inl h1
      · rw [hacc1, heq] at h1
        rw [mark_section_reject_vis hp j] at h1
        exact Or.inl h1
      · have hx : x ∈ (secGet ctx q).rels := Hsub x (by simp)
        have hrf : RF ctx st [q] t := rf_accept_target Hst hx hf ht ha hv
        rcases hcase with ⟨hrec, heq⟩ | ⟨v, hrec, heq⟩
        · rw [hacc1, heq] at h1
          rcases mark_section_vis_sound h1 with h2 | ⟨h2, _, _⟩
          · exact Or.inl h2
          · have : t = j := Option.some.inj h2
            subst this
            exact Or.inr hrf
        · rw [hacc1, heq] at h1
          have hm := HR v hrec t (mark_section acc.1 (some t)).2
          rcases hm.sound j h1 with h2 | h2
          · rcases mark_section_vis_sound h2 with h3 | ⟨h3, _, _⟩
            · exact Or.inl h3
            · have : t = j := Option.some.inj h3
              subst this
              exact Or.inr hrf
          · exact Or.inr (RF_absorb (Hst.trans (mark_section_le acc.1 (some t))) hrf h2)
    · exact Or.inr h1

theorem relFold_fsound {ctx : Ctx} {q : Nat} {st : GcState}
    {rec? : Option (Nat → GcState → GcState × List Nat)}
    (HR : ∀ v, rec? = some v → RSpec ctx v)
    (rs : List Nat) (acc : GcState × List Nat)
    (Hsub : ∀ x ∈ rs, x ∈ (secGet ctx q).rels)
    (Hst : StLe st acc.1) :
    ∀ fr, (rs.foldl (relStep ctx rec? (secGet ctx q).fileIdx) acc).1.fragAlive fr = true →
      acc.1.fragAlive fr = true ∨ ∃ s, RF ctx st [q] s ∧ fragEdge ctx s fr := by
  induction rs generalizing acc with
  | nil => exact fun fr h => Or.inl h
  | cons x xs ih =>
    intro fr h
    simp only [List.foldl_cons] at h
    set acc1 := relStep ctx rec? (secGet ctx q).fileIdx acc x with hacc1
    have Hst1 : StLe st acc1.1 := Hst.trans (relStep_le_one acc x HR).1
    rcases ih acc1 (fun y hy => Hsub y (List.mem_cons_of_mem x hy)) Hst1 fr h with h1 | h1
    · have hx : x ∈ (secGet ctx q).rels := Hsub x (by simp)
      rcases relStep_cases ctx rec? (secGet ctx q).fileIdx acc x with ⟨fr2, hf, heq⟩ |
        ⟨hf, hp, heq⟩ | ⟨t, hf, ht, ha, hv, hcase⟩
      · rw [hacc1, heq] at h1
        rcases setTrue_eq_true_iff.mp h1 with h2 | h2
        · subst h2
          exact Or.inr ⟨q, RF.base q (by simp), Or.inr ⟨x, hx, hf⟩⟩
        · exact Or.inl h2
      · rw [hacc1, heq] at h1
        rw [mark_section_frag_eq] at h1
        exact Or.inl h1
      · have hrf : RF ctx st [q] t := rf_accept_target Hst hx hf ht ha hv
        rcases hcase with ⟨hrec, heq⟩ | ⟨v, hrec, heq⟩
        · rw [hacc1, heq] at h1
          rw [mark_section_frag_eq] at h1
          exact Or.inl h1
        · rw [hacc1, heq] at h1
          have hm := HR v hrec t (mark_section acc.1 (some t)).2
          rcases hm.fsound fr h1 with h2 | ⟨s, hs, hedge⟩
          · rw [mark_section_frag_eq] at h2
            exact Or.inl h2
          · exact Or.inr ⟨s,
              RF_absorb (Hst.trans (mark_section_le acc.1 (some t))) hrf hs, hedge⟩
    · exact Or.inr h1

theorem relFold_out {ctx : Ctx} {rec? : Option (Nat → GcState → GcState × List Nat)}
    {fi : Nat} (HR : ∀ v, rec? = some v → RSpec ctx v)
    (rs : List Nat) (acc : GcState × List Nat) :
    ∀ o ∈ (rs.foldl (relStep ctx rec? fi) acc).2, o ∈ acc.2 ∨
      ((rs.foldl (relStep ctx rec? fi) acc).1.secVisited o = true ∧
        acc.1.secVisited o = false) := by
  induction rs generalizing acc with
  | nil => exact fun o ho => Or.inl ho
  | cons x xs ih =>
    intro o ho
    simp only [List.foldl_cons] at ho ⊢
    rcases relStep_cases ctx rec? fi acc x with ⟨fr, hf, heq⟩ | ⟨hf, hp, heq⟩ |
      ⟨t, hf, ht, ha, hv, hcase⟩
    · rw [heq] at ho ⊢
      rcases ih _ o ho with h1 | ⟨h1, h2⟩
      · exact Or.inl h1
      · exact Or.inr ⟨h1, h2⟩
    · rw [heq] at ho ⊢
      rcases ih _ o ho with h1 | ⟨h1, h2⟩
      · exact Or.inl h1
      · refine Or.inr ⟨h1, ?_⟩
        have h3 : (mark_section acc.1 (resolveSym ctx fi x).inputSection).2.secVisited o =
            false := h2
        rw [mark_section_reject_vis hp o] at h3
        exact h3
    · rcases hcase with ⟨hrec, heq⟩ | ⟨v, hrec, heq⟩
      · rw [heq] at ho ⊢
        rcases ih _ o ho with h1 | ⟨h1, h2⟩
        · rcases List.mem_append.mp h1 with h2 | h2
          · exact Or.inl h2
          · have hot : o = t := by simpa using h2
            subst hot
            refine Or.inr ⟨?_, hv⟩
            exact (@relFold_le ctx rec? fi xs
              ((mark_section acc.1 (some o)).2, acc.2 ++ [o]) HR).1.1 o
              (mark_section_visited_after ha)
        · refine Or.inr ⟨h1, ?_⟩
          have h3 : (mark_section acc.1 (some t)).2.secVisited o = false := h2
          exact (mark_section_le acc.1 (some t)).vis_false h3
      · rw [heq] at ho ⊢
        have hm := HR v hrec t (mark_section acc.1 (some t)).2
        rcases ih _ o ho with h1 | ⟨h1, h2⟩
        · rcases List.mem_append.mp h1 with h2 | h2
          · exact Or.inl h2
          · obtain ⟨ho1, ho2⟩ := hm.out_vis o h2
            refine Or.inr ⟨?_, (mark_section_le acc.1 (some t)).vis_false ho2⟩
            exact (@relFold_le ctx rec? fi xs
              ((v t (mark_section acc.1 (some t)).2).1,
                acc.2 ++ (v t (mark_section acc.1 (some t)).2).2) HR).1.1 o ho1
        · refine Or.inr ⟨h1, ?_⟩
          have h3 : (v t (mark_section acc.1 (some t)).2).1.secVisited o = false := h2
          exact (mark_section_le acc.1 (some t)).vis_false (hm.le.vis_false h3)

theorem relFold_defer {ctx : Ctx} {rec? : Option (Nat → GcState → GcState × List Nat)}
    {fi : Nat} (HR : ∀ v, rec? = some v → RSpec ctx v)
    (rs : List Nat) (acc : GcState × List Nat) :
    ∀ j, (rs.foldl (relStep ctx rec? fi) acc).1.secVisited j = true →
      acc.1.secVisited j = false →
      j ∈ (rs.foldl (relStep ctx rec? fi) acc).2 ∨
        (SatSec ctx (rs.foldl (relStep ctx rec? fi) acc).1 j ∧
          SatFrag ctx (rs.foldl (relStep ctx rec? fi) acc).1 j) := by
  induction rs generalizing acc with
  | nil =>
    intro j h hn
    simp only [List.foldl_nil] at h
    rw [h] at hn; exact Bool.noConfusion hn
  | cons x xs ih =>
    intro j h hn
    simp only [List.foldl_cons] at h ⊢
    rcases relStep_cases ctx rec? fi acc x with ⟨fr, hf, heq⟩ | ⟨hf, hp, heq⟩ |
      ⟨t, hf, ht, ha, hv, hcase⟩
    · rw [heq] at h ⊢
      exact ih _ j h hn
    · rw [heq] at h ⊢
      refine ih _ j h ?_
      show (mark_section acc.1 (resolveSym ctx fi x).inputSection).2.secVisited j = false
      rw [mark_section_reject_vis hp j]
      exact hn
    · rcases hcase with ⟨hrec, heq⟩ | ⟨v, hrec, heq⟩
      · rw [heq] at h ⊢
        cases h1 : (mark_section acc.1 (some t)).2.secVisited j
        · exact ih _ j h h1
        · rcases mark_section_vis_sound h1 with h2 | ⟨h2, _, _⟩
          · rw [h2] at hn; exact Bool.noConfusion hn
          · have hjt : t = j := Option.some.inj h2
            subst hjt
            obtain ⟨add, hadd⟩ := (@relFold_le ctx rec? fi xs
              ((mark_section acc.1 (some t)).2, acc.2 ++ [t]) HR).2
            rw [hadd]
            exact Or.inl (List.mem_append_left add (by simp))
      · rw [heq] at h ⊢
        have hm := HR v hrec t (mark_section acc.1 (some t)).2
        have hfold := @relFold_le ctx rec? fi xs
          ((v t (mark_section acc.1 (some t)).2).1,
            acc.2 ++ (v t (mark_section acc.1 (some t)).2).2) HR
        cases h1 : (v t (mark_section acc.1 (some t)).2).1.secVisited j
        · exact ih _ j h h1
        · cases h2 : (mark_section acc.1 (some t)).2.secVisited j
          · rcases hm.defer j h1 h2 with h3 | ⟨h3, h4⟩
            · obtain ⟨add, hadd⟩ := hfold.2
              rw [hadd]
              exact Or.inl (List.mem_append_left add (List.mem_append_right _ h3))
            · exact Or.inr ⟨SatSec_mono hfold.1 h3, SatFrag_mono hfold.1 h4⟩
          · rcases mark_section_vis_sound h2 with h3 | ⟨h3, _, _⟩
            · rw [h3] at hn; exact Bool.noConfusion hn
            · have hjt : t = j := Option.some.inj h3
              subst hjt
              obtain ⟨hs1, hs2⟩ := hm.satq
              exact Or.inr ⟨SatSec_mono hfold.1 hs1, SatFrag_mono hfold.1 hs2⟩

theorem relFold_cov {ctx : Ctx} {rec? : Option (Nat → GcState → GcState × List Nat)}
    {fi : Nat} (HR : ∀ v, rec? = some v → RSpec ctx v)
    (rs : List Nat) (acc : GcState × List Nat) :
    ∀ x ∈ rs,
      (∀ fr, (resolveSym ctx fi x).frag = some fr →
        (rs.foldl (relStep ctx rec? fi) acc).1.fragAlive fr = true) ∧
      ((resolveSym ctx fi x).frag = none →
        ∀ t, (resolveSym ctx fi x).inputSection = some t →
          (rs.foldl (relStep ctx rec? fi) acc).1.secAlive t = true →
          (rs.foldl (relStep ctx rec? fi) acc).1.secVisited t = true) := by
  induction rs generalizing acc with
  | nil => intro x hx; simp at hx
  | cons y ys ih =>
    intro x hx
    simp only [List.foldl_cons]
    rcases List.mem_cons.mp hx with h0 | h0
    · subst h0
      rcases relStep_cases ctx rec? fi acc x with ⟨fr2, hf2, heq⟩ | ⟨hf2, hp, heq⟩ |
        ⟨t2, hf2, ht2, ha, hv, hcase⟩
      · rw [heq]
        constructor
        · intro fr hf
          have hfr : fr2 = fr := Option.some.inj (hf2.symm.trans hf)
          subst hfr
          exact (@relFold_le ctx rec? fi ys (setFrag acc.1 fr2, acc.2) HR).1.2.1 fr2
            (setTrue_self _ _)
        · intro hf
          exact Option.noConfusion (hf.symm.trans hf2)
      · rw [heq]
        have hle := (@relFold_le ctx rec? fi ys
          ((mark_section acc.1 (resolveSym ctx fi x).inputSection).2, acc.2) HR).1
        constructor
        · intro fr hf
          exact Option.noConfusion (hf2.symm.trans hf)
        · intro hf t ht halive
          have ha_acc : acc.1.secAlive t = true := by
            have e1 := hle.alive t
            rw [e1] at halive
            have h3 : (mark_section acc.1 (resolveSym ctx fi x).inputSection).2.secAlive t =
                true := halive
            rw [(mark_section_le acc.1 (resolveSym ctx fi x).inputSection).alive t] at h3
            exact h3
          cases hvt : acc.1.secVisited t
          · exfalso
            rw [ht] at hp
            rw [mark_section_alive ha_acc, hvt] at hp
            simp at hp
          · refine hle.1 t ?_
            show (mark_section acc.1 (resolveSym ctx fi x).inputSection).2.secVisited t = true
            exact (mark_section_le acc.1 (resolveSym ctx fi x).inputSection).1 t hvt
      · rcases hcase with ⟨hrec, heq⟩ | ⟨v, hrec, heq⟩
        · rw [heq]
          constructor
          · intro fr hf
            exact Option.noConfusion (hf2.symm.trans hf)
          · intro hf t ht halive
            have htt : t2 = t := Option.some.inj (ht2.symm.trans ht)
            subst htt
            exact (@relFold_le ctx rec? fi ys
              ((mark_section acc.1 (some t2)).2, acc.2 ++ [t2]) HR).1.1 t2
              (mark_section_visited_after ha)
        · rw [heq]
          have hm := HR v hrec t2 (mark_section acc.1 (some t2)).2
          constructor
          · intro fr hf
            exact Option.noConfusion (hf2.symm.trans hf)
          · intro hf t ht halive
            have htt : t2 = t := Option.some.inj (ht2.symm.trans ht)
            subst htt
            exact (@relFold_le ctx rec? fi ys
              ((v t2 (mark_section acc.1 (some t2)).2).1,
                acc.2 ++ (v t2 (mark_section acc.1 (some t2)).2).2) HR).1.1 t2
              (hm.le.1 t2 (mark_section_visited_after ha))
    · exact ih (relStep ctx rec? fi acc y) x h0

theorem relStep_cnt_one {ctx : Ctx} {rec? : Option (Nat → GcState → GcState × List Nat)}
    {fi : Nat} (acc : GcState × List Nat) (r : Nat)
    (HR : ∀ v, rec? = some v → RSpec ctx v) (HA : HAlive ctx acc.1) :
    uCount ctx (relStep ctx rec? fi acc r).1 + (relStep ctx rec? fi acc r).2.length ≤
      uCount ctx acc.1 + acc.2.length := by
  rcases relStep_cases ctx rec? fi acc r with ⟨fr, hf, heq⟩ | ⟨hf, hp, heq⟩ |
    ⟨t, hf, ht, ha, hv, hcase⟩
  · rw [heq]
    have : uCount ctx (setFrag acc.1 fr) = uCount ctx acc.1 :=
      uCount_congr (fun j => rfl) (fun j => rfl)
    simp only
    omega
  · rw [heq]
    have : uCount ctx (mark_section acc.1 (resolveSym ctx fi r).inputSection).2 =
        uCount ctx acc.1 :=
      uCount_congr (fun j => (mark_section_le acc.1 _).alive j)
        (mark_section_reject_vis hp)
    simp only
    omega
  · rcases hcase with ⟨hrec, heq⟩ | ⟨v, hrec, heq⟩
    · rw [heq]
      have h1 : uCount ctx (mark_section acc.1 (some t)).2 + 1 ≤ uCount ctx acc.1 := by
        rw [mark_section_alive ha]
        exact uCount_set (HA t ha) ha hv
      simp only [List.length_append, List.length_singleton]
      omega
    · rw [heq]
      have h1 : uCount ctx (mark_section acc.1 (some t)).2 + 1 ≤ uCount ctx acc.1 := by
        rw [mark_section_alive ha]
        exact uCount_set (HA t ha) ha hv
      have hm := HR v hrec t (mark_section acc.1 (some t)).2
      have h2 := hm.cnt (HAlive_of_le (mark_section_le acc.1 (some t)) HA)
      simp only [List.length_append]
      omega

theorem relFold_cnt {ctx : Ctx} {rec? : Option (Nat → GcState → GcState × List Nat)}
    {fi : Nat} (HR : ∀ v, rec? = some v → RSpec ctx v)
    (rs : List Nat) (acc : GcState × List Nat) (HA : HAlive ctx acc.1) :
    uCount ctx (rs.foldl (relStep ctx rec? fi) acc).1 +
        (rs.foldl (relStep ctx rec? fi) acc).2.length ≤
      uCount ctx acc.1 + acc.2.length := by
  induction rs generalizing acc with
  | nil => exact Nat.le_refl _
  | cons x xs ih =>
    simp only [List.foldl_cons]
    have h1 := @relStep_cnt_one ctx rec? fi acc x HR HA
    have h2 := ih (relStep ctx rec? fi acc x)
      (HAlive_of_le (relStep_le_one acc x HR).1 HA)
    omega

theorem visitBody_eq (ctx : Ctx) (rec? : Option (Nat → GcState → GcState × List Nat))
    (q : Nat) (st : GcState) :
    visitBody ctx rec? q st =
      (secGet ctx q).rels.foldl (relStep ctx rec? (secGet ctx q).fileIdx)
        ((secGet ctx q).fdes.foldl (fdeStep ctx)
          (markFragList st (secGet ctx q).relFragments, [])) := rfl

theorem visitBody_spec (ctx : Ctx) (rec? : Option (Nat → GcState → GcState × List Nat))
    (HR : ∀ v, rec? = some v → RSpec ctx v) (q : Nat) (st : GcState) :
    MSpec ctx q st (visitBody ctx rec? q st).1 (visitBody ctx rec? q st).2 := by
  rw [visitBody_eq]
  have hvis1 : (markFragList st (secGet ctx q).relFragments).secVisited = st.secVisited :=
    (markFragList_same _ _).1
  have hle1 : StLe st (markFragList st (secGet ctx q).relFragments) :=
    markFragList_le _ _
  rw [fdeFold_eq]
  set flat := ((secGet ctx q).fdes.map (fun f => f.rels.drop 1)).flatten with hflat
  set accF := flat.foldl (ehMarkStep ctx)
    (markFragList st (secGet ctx q).relFragments, []) with haccF
  have Hrs : ∀ rsym ∈ flat, ∀ t, (symGet ctx rsym).inputSection = some t →
      sedge ctx q t := by
    intro rsym hr t hts
    obtain ⟨fde, hfde, hmem⟩ := mem_fdeFlat.mp hr
    exact Or.inl ⟨fde, hfde, rsym, hmem, hts⟩
  obtain ⟨hleF, ⟨addF, haddF⟩, hfragF⟩ :=
    ehFold_le ctx flat (markFragList st (secGet ctx q).relFragments, [])
  have hleSF : StLe st accF.1 := hle1.trans hleF
  set fi := (secGet ctx q).fileIdx with hfi
  set res := (secGet ctx q).rels.foldl (relStep ctx rec? fi) accF with hres
  have Hsub : ∀ x ∈ (secGet ctx q).rels, x ∈ (secGet ctx q).rels := fun x hx => hx
  obtain ⟨hleR, ⟨addR, haddR⟩⟩ := @relFold_le ctx rec? fi (secGet ctx q).rels accF HR
  have hleTot : StLe st res.1 := hleSF.trans hleR
  refine ⟨hleTot, ?_, ?_, ?_, ⟨?_, ?_⟩, ?_, ?_⟩
  · -- out_vis
    intro o ho
    rcases @relFold_out ctx rec? fi HR (secGet ctx q).rels accF o ho with h1 | ⟨h1, h2⟩
    · rcases ehFold_out flat _ o h1 with h2 | ⟨h2, h3⟩
      · simp at h2
      · refine ⟨hleR.1 o h2, ?_⟩
        rw [← hvis1]
        exact h3
    · refine ⟨h1, ?_⟩
      have h3 := hleF.vis_false h2
      rw [← hvis1]
      exact h3
  · -- sound
    intro j h
    rcases relFold_sound HR (secGet ctx q).rels accF Hsub hleSF j h with h1 | h1
    · rcases ehFold_sound flat _ hle1 Hrs j h1 with h2 | h2
      · rw [hvis1] at h2
        exact Or.inl h2
      · exact Or.inr h2
    · exact Or.inr h1
  · -- fsound
    intro fr h
    rcases relFold_fsound HR (secGet ctx q).rels accF Hsub hleSF fr h with h1 | h1
    · rw [hfragF] at h1
      rcases markFragList_frag_sound h1 with h2 | h2
      · exact Or.inl h2
      · exact Or.inr ⟨q, RF.base q (by simp), Or.inl h2⟩
    · exact Or.inr h1
  · -- SatSec q
    intro t he ha
    rcases he with ⟨fde, hfde, rsym, hmem, hts⟩ | ⟨r, hr, hfnone, hts⟩
    · have hflatmem : rsym ∈ flat := mem_fdeFlat.mpr ⟨fde, hfde, hmem⟩
      have haF : accF.1.secAlive t = true := by
        rw [hleR.alive t] at ha; exact ha
      exact hleR.1 t (ehFold_cov flat _ rsym hflatmem t hts haF)
    · exact ((@relFold_cov ctx rec? fi HR (secGet ctx q).rels accF r hr).2) hfnone t hts ha
  · -- SatFrag q
    intro fr he
    rcases he with h1 | ⟨r, hr, hfr⟩
    · have h2 : (markFragList st (secGet ctx q).relFragments).fragAlive fr = true :=
        markFragList_frag_cov h1
      refine hleR.2.1 fr ?_
      rw [hfragF]
      exact h2
    · exact (@relFold_cov ctx rec? fi HR (secGet ctx q).rels accF r hr).1 fr hfr
  · -- defer
    intro j h hn
    cases h1 : accF.1.secVisited j
    · exact @relFold_defer ctx rec? fi HR (secGet ctx q).rels accF j h h1
    · have hn1 : (markFragList st (secGet ctx q).relFragments).secVisited j = false := by
        rw [hvis1]; exact hn
      have h2 := ehFold_new_out flat _ j h1 hn1
      rw [haddR]
      exact Or.inl (List.mem_append_left addR h2)
  · -- cnt
    intro HA
    have hu1 : uCount ctx (markFragList st (secGet ctx q).relFragments) =
        uCount ctx st := by
      apply uCount_congr
      · intro j; rw [(markFragList_same (secGet ctx q).relFragments st).2.1]
      · intro j; rw [hvis1]
    have HAm : HAlive ctx (markFragList st (secGet ctx q).relFragments) :=
      HAlive_of_le hle1 HA
    have hcF := ehFold_cnt flat (markFragList st (secGet ctx q).relFragments, []) HAm
    have HAF : HAlive ctx accF.1 := HAlive_of_le hleF HAm
    have hcR := @relFold_cnt ctx rec? fi HR (secGet ctx q).rels accF HAF
    have hcF2 : uCount ctx accF.1 + accF.2.length ≤
        uCount ctx (markFragList st (secGet ctx q).relFragments) := by
      rw [← haccF] at hcF
      simpa using hcF
    have hcR2 : uCount ctx res.1 + res.2.length ≤ uCount ctx accF.1 + accF.2.length := by
      rw [← hres] at hcR
      exact hcR
    omega

theorem visitGo_spec (ctx : Ctx) :
    ∀ fuel q st, MSpec ctx q st (visitGo ctx fuel q st).1 (visitGo ctx fuel q st).2 := by
  intro fuel
  induction fuel with
  | zero =>
    intro q st
    show MSpec ctx q st (visitBody ctx none q st).1 (visitBody ctx none q st).2
    exact visitBody_spec ctx none (fun v h => Option.noConfusion h) q st
  | succ n ih =>
    intro q st
    show MSpec ctx q st (visitBody ctx (some fun t st0 => visitGo ctx n t st0) q st).1
      (visitBody ctx (some fun t st0 => visitGo ctx n t st0) q st).2
    refine visitBody_spec ctx (some fun t st0 => visitGo ctx n t st0) ?_ q st
    intro v h
    have hv : (fun t st0 => visitGo ctx n t st0) = v := Option.some.inj h
    subst hv
    exact fun t st0 => ih t st0

theorem RF_vis_mem {ctx : Ctx} {st : GcState} {Q : List Nat} {s : Nat}
    (h : RF ctx st Q s) (hv : st.secVisited s = true) : s ∈ Q := by
  cases h with
  | base _ hi => exact hi
  | step _ _ _ _ _ hvf => rw [hv] at hvf; exact Bool.noConfusion hvf

theorem RF_vis_src {ctx : Ctx} {q : Nat} {st st1 : GcState} {out : List Nat}
    (m : MSpec ctx q st st1 out) {rest : List Nat} {s : Nat}
    (hs : RF ctx st1 (rest ++ out) s) (hvs : st.secVisited s = true) : s ∈ rest := by
  have hmem := RF_vis_mem hs (m.le.1 s hvs)
  rcases List.mem_append.mp hmem with h | h
  · exact h
  · have := (m.out_vis s h).2
    rw [hvs] at this
    exact Bool.noConfusion this

theorem transfer_vis_fwd {ctx : Ctx} {q : Nat} {st st1 : GcState} {out : List Nat}
    (m : MSpec ctx q st st1 out) (hq : st.secVisited q = true) {rest : List Nat} {i : Nat}
    (h : RF ctx st (q :: rest) i) :
    st1.secVisited i = true ∨ RF ctx st1 (rest ++ out) i := by
  induction h with
  | base i hi =>
    rcases List.mem_cons.mp hi with h | h
    · subst h
      exact Or.inl (m.le.1 i hq)
    · exact Or.inr (RF.base i (List.mem_append_left out h))
  | step s t hs he ha hv ih =>
    have hat : st1.secAlive t = true := by rw [m.le.alive t]; exact ha
    rcases ih with h1 | h1
    · cases hvs : st.secVisited s
      · rcases m.defer s h1 hvs with hout | ⟨hsat, _⟩
        · cases hvt : st1.secVisited t
          · exact Or.inr (RF.step s t (RF.base s (List.mem_append_right rest hout)) he hat hvt)
          · exact Or.inl rfl
        · exact Or.inl (hsat t he hat)
      · have hmem : s ∈ q :: rest := RF_vis_mem hs hvs
        rcases List.mem_cons.mp hmem with h2 | h2
        · subst h2
          exact Or.inl (m.satq.1 t he hat)
        · cases hvt : st1.secVisited t
          · exact Or.inr (RF.step s t (RF.base s (List.mem_append_left out h2)) he hat hvt)
          · exact Or.inl rfl
    · cases hvt : st1.secVisited t
      · exact Or.inr (RF.step s t h1 he hat hvt)
      · exact Or.inl rfl

theorem transfer_vis_bwd {ctx : Ctx} {q : Nat} {st st1 : GcState} {out : List Nat}
    (m : MSpec ctx q st st1 out) (hq : st.secVisited q = true) {rest : List Nat} {i : Nat}
    (h : RF ctx st1 (rest ++ out) i) :
    st.secVisited i = true ∨ RF ctx st (q :: rest) i := by
  induction h with
  | base i hi =>
    rcases List.mem_append.mp hi with h | h
    · exact Or.inr (RF.base i (List.mem_cons_of_mem q h))
    · obtain ⟨h1, h2⟩ := m.out_vis i h
      rcases m.sound i h1 with h3 | h3
      · rw [h3] at h2; exact Bool.noConfusion h2
      · exact Or.inr (RF_monoQ (fun x hx => by
          simp only [List.mem_singleton] at hx
          subst hx
          simp) h3)
  | step s t hs he ha hv ih =>
    have hvt : st.secVisited t = false := m.le.vis_false hv
    have hat : st.secAlive t = true := by rw [← m.le.alive t]; exact ha
    cases hvs : st.secVisited s
    · rcases ih with h1 | h1
      · rw [h1] at hvs; exact Bool.noConfusion hvs
      · exact Or.inr (RF.step s t h1 he hat hvt)
    · have hmem : s ∈ rest := RF_vis_src m hs hvs
      exact Or.inr (RF.step s t (RF.base s (List.mem_cons_of_mem q hmem)) he hat hvt)

theorem transfer_vis {ctx : Ctx} {q : Nat} {st st1 : GcState} {out : List Nat}
    (m : MSpec ctx q st st1 out) (hq : st.secVisited q = true) (rest : List Nat) (i : Nat) :
    (st.secVisited i = true ∨ RF ctx st (q :: rest) i) ↔
      (st1.secVisited i = true ∨ RF ctx st1 (rest ++ out) i) := by
  constructor
  · rintro (h | h)
    · exact Or.inl (m.le.1 i h)
    · exact transfer_vis_fwd m hq h
  · rintro (h | h)
    · rcases m.sound i h with h1 | h1
      · exact Or.inl h1
      · exact Or.inr (RF_monoQ (fun x hx => by
          simp only [List.mem_singleton] at hx
          subst hx
          simp) h1)
    · exact transfer_vis_bwd m hq h

theorem transfer_frag {ctx : Ctx} {q : Nat} {st st1 : GcState} {out : List Nat}
    (m : MSpec ctx q st st1 out) (hq : st.secVisited q = true) (rest : List Nat) (fr : Nat) :
    (st.fragAlive fr = true ∨ FR ctx st (q :: rest) fr) ↔
      (st1.fragAlive fr = true ∨ FR ctx st1 (rest ++ out) fr) := by
  constructor
  · rintro (h | ⟨s, hs, hedge⟩)
    · exact Or.inl (m.le.2.1 fr h)
    · rcases transfer_vis_fwd m hq hs with h1 | h1
      · cases hvs : st.secVisited s
        · rcases m.defer s h1 hvs with hout | ⟨_, hsat⟩
          · exact Or.inr ⟨s, RF.base s (List.mem_append_right rest hout), hedge⟩
          · exact Or.inl (hsat fr hedge)
        · have hmem : s ∈ q :: rest := RF_vis_mem hs hvs
          rcases List.mem_cons.mp hmem with h2 | h2
          · subst h2
            exact Or.inl (m.satq.2 fr hedge)
          · exact Or.inr ⟨s, RF.base s (List.mem_append_left out h2), hedge⟩
      · exact Or.inr ⟨s, h1, hedge⟩
  · rintro (h | ⟨s, hs, hedge⟩)
    · rcases m.fsound fr h with h1 | ⟨s, hs, hedge⟩
      · exact Or.inl h1
      · exact Or.inr ⟨s, RF_monoQ (fun x hx => by
          simp only [List.mem_singleton] at hx
          subst hx
          simp) hs, hedge⟩
    · rcases transfer_vis_bwd m hq hs with h1 | h1
      · have hmem : s ∈ rest := RF_vis_src m hs h1
        exact Or.inr ⟨s, RF.base s (List.mem_cons_of_mem q hmem), hedge⟩
      · exact Or.inr ⟨s, h1, hedge⟩

theorem FR_nil {ctx : Ctx} {st : GcState} {fr : Nat} (h : FR ctx st [] fr) : False := by
  obtain ⟨s, hs, _⟩ := h
  exact RF_nil hs

theorem markLoop_spec (ctx : Ctx) (b : Nat) :
    ∀ fuel Q st, HAlive ctx st → (∀ x ∈ Q, st.secVisited x = true) →
      Q.length + uCount ctx st ≤ fuel →
      StLe st (markLoop ctx b fuel Q st) ∧
      (∀ i, (markLoop ctx b fuel Q st).secVisited i = true ↔
        (st.secVisited i = true ∨ RF ctx st Q i)) ∧
      (∀ fr, (markLoop ctx b fuel Q st).fragAlive fr = true ↔
        (st.fragAlive fr = true ∨ FR ctx st Q fr)) := by
  intro fuel
  induction fuel with
  | zero =>
    intro Q st HA HQ HF
    have hQ0 : Q = [] := by
      cases Q with
      | nil => rfl
      | cons a l => simp at HF
    subst hQ0
    refine ⟨StLe.refl st, fun i => ?_, fun fr => ?_⟩
    · simp only [markLoop]
      constructor
      · exact fun h => Or.inl h
      · rintro (h | h)
        · exact h
        · exact absurd h RF_nil
    · simp only [markLoop]
      constructor
      · exact fun h => Or.inl h
      · rintro (h | h)
        · exact h
        · exact absurd h FR_nil
  | succ n ih =>
    intro Q st HA HQ HF
    cases Q with
    | nil =>
      refine ⟨StLe.refl st, fun i => ?_, fun fr => ?_⟩
      · simp only [markLoop]
        constructor
        · exact fun h => Or.inl h
        · rintro (h | h)
          · exact h
          · exact absurd h RF_nil
      · simp only [markLoop]
        constructor
        · exact fun h => Or.inl h
        · rintro (h | h)
          · exact h
          · exact absurd h FR_nil
    | cons q rest =>
      have m : MSpec ctx q st (visitGo ctx b q st).1 (visitGo ctx b q st).2 :=
        visitGo_spec ctx b q st
      have hq : st.secVisited q = true := HQ q (by simp)
      have HA1 : HAlive ctx (visitGo ctx b q st).1 := HAlive_of_le m.le HA
      have HQ1 : ∀ x ∈ rest ++ (visitGo ctx b q st).2,
          (visitGo ctx b q st).1.secVisited x = true := by
        intro x hx
        rcases List.mem_append.mp hx with h | h
        · exact m.le.1 x (HQ x (List.mem_cons_of_mem q h))
        · exact (m.out_vis x h).1
      have HF1 : (rest ++ (visitGo ctx b q st).2).length +
          uCount ctx (visitGo ctx b q st).1 ≤ n := by
        have hc := m.cnt HA
        simp only [List.length_append]
        simp only [List.length_cons] at HF
        omega
      obtain ⟨le2, hvis2, hfrag2⟩ := ih (rest ++ (visitGo ctx b q st).2)
        (visitGo ctx b q st).1 HA1 HQ1 HF1
      have hunf : markLoop ctx b (n + 1) (q :: rest) st =
          markLoop ctx b n (rest ++ (visitGo ctx b q st).2) (visitGo ctx b q st).1 := by
        simp only [markLoop]
      rw [hunf]
      refine ⟨m.le.trans le2, fun i => ?_, fun fr => ?_⟩
      · rw [hvis2 i]
        exact (transfer_vis m hq rest i).symm
      · rw [hfrag2 fr]
        exact (transfer_frag m hq rest fr).symm

theorem foldl_le_gen {α : Type} (f : GcState × List Nat → α → GcState × List Nat)
    (hle : ∀ acc x, StLe acc.1 (f acc x).1) :
    ∀ (l : List α) (acc : GcState × List Nat), StLe acc.1 (l.foldl f acc).1 := by
  intro l
  induction l with
  | nil => intro acc; exact StLe.refl _
  | cons x xs ih => intro acc; exact (hle acc x).trans (ih (f acc x))

theorem foldl_inv_gen {α : Type} (f : GcState × List Nat → α → GcState × List Nat)
    (I : GcState × List Nat → Prop) :
    ∀ (l : List α), (∀ acc x, x ∈ l → I acc → I (f acc x)) →
      ∀ acc, I acc → I (l.foldl f acc) := by
  intro l
  induction l with
  | nil => intro _ acc h; exact h
  | cons x xs ih =>
    intro hstep acc h
    exact ih (fun a y hy => hstep a y (List.mem_cons_of_mem x hy)) (f acc x)
      (hstep acc x (by simp) h)

theorem foldl_cov_gen {α : Type} (f : GcState × List Nat → α → GcState × List Nat)
    (hle : ∀ acc x, StLe acc.1 (f acc x).1)
    (I : GcState × List Nat → Prop) (hI : ∀ acc x, I acc → I (f acc x))
    (P : GcState → Prop) (hmono : ∀ a b, StLe a b → P a → P b)
    (x : α) (hstep : ∀ acc, I acc → P ((f acc x).1)) :
    ∀ (l : List α), x ∈ l → ∀ acc, I acc → P ((l.foldl f acc).1) := by
  intro l
  induction l with
  | nil => intro hx; simp at hx
  | cons y ys ih =>
    intro hx acc hacc
    simp only [List.foldl_cons]
    rcases List.mem_cons.mp hx with h | h
    · subst h
      exact hmono _ _ (foldl_le_gen f hle ys (f acc x)) (hstep acc hacc)
    · exact ih h (f acc y) (hI acc y hacc)

theorem scanA_eq (ctx : Ctx) (acc : GcState × List Nat) :
    scanA ctx acc = (scanAItems ctx).foldl (scanAStep ctx) acc := by
  unfold scanA scanAItems
  rw [List.foldl_flatten, List.foldl_map]

theorem scanB_eq (ctx : Ctx) (acc : GcState × List Nat) :
    scanB ctx acc =
      (scanBItems ctx).foldl (fun a pr => scanBStep ctx pr.1 a pr.2) acc := by
  unfold scanB scanBItems
  rw [List.foldl_flatten, List.foldl_map]
  simp only [List.foldl_map]

theorem scanC_eq (ctx : Ctx) (acc : GcState × List Nat) :
    scanC ctx acc =
      (scanCItems ctx).foldl (fun a os => enqueue_symbol a (os.map (symGet ctx))) acc := by
  unfold scanC scanCItems
  simp only [List.foldl_cons]

theorem scanD_eq (ctx : Ctx) (acc : GcState × List Nat) :
    scanD ctx acc =
      (scanDItems ctx).foldl
        (fun a rsym => enqueue_section a (symGet ctx rsym).inputSection) acc := by
  unfold scanD scanDItems
  rw [List.foldl_flatten, List.foldl_map, List.foldl_flatten, List.foldl_map]

theorem listed_iff {ctx : Ctx} {i : Nat} :
    listedSec ctx i = true ↔ some i ∈ scanAItems ctx := by
  unfold listedSec scanAItems
  simp only [List.any_eq_true, List.mem_flatten, List.mem_map]
  constructor
  · rintro ⟨f, hf, hc⟩
    exact ⟨f.sections, ⟨f, hf, rfl⟩, List.elem_iff.mp hc⟩
  · rintro ⟨l, ⟨f, hf, rfl⟩, hc⟩
    exact ⟨f, hf, List.elem_iff.mpr hc⟩

theorem trigA_iff {ctx : Ctx} {i : Nat} :
    trigA ctx i = true ↔ listedSec ctx i = true ∧
      (is_init_fini (secGet ctx i) || (secGet ctx i).shType == SHT_NOTE) = true := by
  unfold trigA
  simp [Bool.and_eq_true]

theorem isNA_iff {ctx : Ctx} {i : Nat} :
    isNA ctx i = true ↔ listedSec ctx i = true ∧ (secGet ctx i).alloc = false := by
  unfold isNA
  simp [Bool.and_eq_true, Bool.not_eq_true']

theorem mem_scanBItems {ctx : Ctx} {pr : Nat × Nat} :
    pr ∈ scanBItems ctx ↔ ∃ p ∈ ctx.objs.enum, ∃ sid ∈ p.2.symbols, pr = (p.1, sid) := by
  unfold scanBItems
  simp only [List.mem_flatten, List.mem_map]
  constructor
  · rintro ⟨l, ⟨p, hp, rfl⟩, hpr⟩
    simp only [List.mem_map] at hpr
    obtain ⟨sid, hsid, hpr2⟩ := hpr
    exact ⟨p, hp, sid, hsid, hpr2.symm⟩
  · rintro ⟨p, hp, sid, hsid, rfl⟩
    refine ⟨p.2.symbols.map (fun sid => (p.1, sid)), ⟨p, hp, rfl⟩, ?_⟩
    simp only [List.mem_map]
    exact ⟨sid, hsid, rfl⟩

theorem trigB_iff {ctx : Ctx} {i : Nat} :
    trigB ctx i = true ↔ ∃ pr ∈ scanBItems ctx,
      (symGet ctx pr.2).fileIdx = some pr.1 ∧ (symGet ctx pr.2).isExported = true ∧
      (symGet ctx pr.2).frag = none ∧ (symGet ctx pr.2).inputSection = some i := by
  unfold trigB
  simp only [List.any_eq_true, Bool.and_eq_true, symRootsSec, beq_iff_eq,
    Option.isNone_iff_eq_none]
  constructor
  · rintro ⟨p, hp, sid, hsid, ⟨⟨hfi, hex⟩, hfr, his⟩⟩
    exact ⟨(p.1, sid), mem_scanBItems.mpr ⟨p, hp, sid, hsid, rfl⟩, hfi, hex, hfr, his⟩
  · rintro ⟨pr, hpr, hfi, hex, hfr, his⟩
    obtain ⟨p, hp, sid, hsid, hpr2⟩ := mem_scanBItems.mp hpr
    subst hpr2
    exact ⟨p, hp, sid, hsid, ⟨⟨hfi, hex⟩, hfr, his⟩⟩

theorem trigC_iff {ctx : Ctx} {i : Nat} :
    trigC ctx i = true ↔ ∃ os ∈ scanCItems ctx, ∃ sid, os = some sid ∧
      (symGet ctx sid).frag = none ∧ (symGet ctx sid).inputSection = some i := by
  unfold trigC scanCItems
  simp only [List.any_eq_true]
  constructor
  · rintro ⟨os, hos, hc⟩
    cases os with
    | none => simp at hc
    | some sid =>
      simp only [symRootsSec, Bool.and_eq_true, Option.isNone_iff_eq_none,
        beq_iff_eq] at hc
      exact ⟨some sid, hos, sid, rfl, hc.1, hc.2⟩
  · rintro ⟨os, hos, sid, rfl, hfr, his⟩
    refine ⟨some sid, hos, ?_⟩
    simp [symRootsSec, hfr, his]

theorem mem_scanDItems {ctx : Ctx} {rsym : Nat} :
    rsym ∈ scanDItems ctx ↔ ∃ f ∈ ctx.objs, ∃ cie ∈ f.cies, rsym ∈ cie.rels := by
  unfold scanDItems
  simp only [List.mem_flatten, List.mem_map]
  constructor
  · rintro ⟨l, ⟨cie, hcie, rfl⟩, hr⟩
    obtain ⟨l2, ⟨f, hf, rfl⟩, hc2⟩ := hcie
    exact ⟨f, hf, cie, hc2, hr⟩
  · rintro ⟨f, hf, cie, hc, hr⟩
    exact ⟨cie.rels, ⟨cie, ⟨f.cies, ⟨f, hf, rfl⟩, hc⟩, rfl⟩, hr⟩

theorem trigD_iff {ctx : Ctx} {i : Nat} :
    trigD ctx i = true ↔
      ∃ rsym ∈ scanDItems ctx, (symGet ctx rsym).inputSection = some i := by
  unfold trigD
  simp only [List.any_eq_true, beq_iff_eq]
  constructor
  · rintro ⟨f, hf, cie, hc, rsym, hr, his⟩
    exact ⟨rsym, mem_scanDItems.mpr ⟨f, hf, cie, hc, hr⟩, his⟩
  · rintro ⟨rsym, hr, his⟩
    obtain ⟨f, hf, cie, hc, hrr⟩ := mem_scanDItems.mp hr
    exact ⟨f, hf, cie, hc, rsym, hrr, his⟩

theorem trig_cases {ctx : Ctx} {i : Nat} (h : trig ctx i = true) :
    trigA ctx i = true ∨ trigB ctx i = true ∨ trigC ctx i = true ∨ trigD ctx i = true := by
  unfold trig at h
  have h2 := h
  simp only [Bool.or_eq_true] at h2
  tauto

theorem trig_of_A {ctx : Ctx} {i : Nat} (h : trigA ctx i = true) : trig ctx i = true := by
  unfold trig; simp [h]

theorem trig_of_B {ctx : Ctx} {i : Nat} (h : trigB ctx i = true) : trig ctx i = true := by
  unfold trig; simp [h]

theorem trig_of_C {ctx : Ctx} {i : Nat} (h : trigC ctx i = true) : trig ctx i = true := by
  unfold trig; simp [h]

theorem trig_of_D {ctx : Ctx} {i : Nat} (h : trigD ctx i = true) : trig ctx i = true := by
  unfold trig; simp [h]

theorem fragCandBC_iff {ctx : Ctx} {fr : Nat} :
    fragCandBC ctx fr = true ↔
      (∃ pr ∈ scanBItems ctx, (symGet ctx pr.2).fileIdx = some pr.1 ∧
        (symGet ctx pr.2).isExported = true ∧ (symGet ctx pr.2).frag = some fr) ∨
      (∃ os ∈ scanCItems ctx, ∃ sid, os = some sid ∧
        (symGet ctx sid).frag = some fr) := by
  unfold fragCandBC scanCItems
  simp only [List.any_eq_true, Bool.or_eq_true, Bool.and_eq_true, beq_iff_eq]
  constructor
  · rintro (⟨p, hp, sid, hsid, ⟨hfi, hex⟩, hfr⟩ | ⟨os, hos, hc⟩)
    · exact Or.inl ⟨(p.1, sid), mem_scanBItems.mpr ⟨p, hp, sid, hsid, rfl⟩, hfi, hex, hfr⟩
    · cases os with
      | none => simp at hc
      | some sid =>
        simp only [beq_iff_eq] at hc
        exact Or.inr ⟨some sid, hos, sid, rfl, hc⟩
  · rintro (⟨pr, hpr, hfi, hex, hfr⟩ | ⟨os, hos, sid, rfl, hfr⟩)
    · obtain ⟨p, hp, sid, hsid, hpr2⟩ := mem_scanBItems.mp hpr
      subst hpr2
      exact Or.inl ⟨p, hp, sid, hsid, ⟨hfi, hex⟩, hfr⟩
    · refine Or.inr ⟨some sid, hos, ?_⟩
      simp [hfr]

theorem enqueue_section_state (acc : GcState × List Nat) (os : Option Nat) :
    (enqueue_section acc os).1 = (mark_section acc.1 os).2 := by
  unfold enqueue_section
  cases hp : (mark_section acc.1 os).1
  · simp [hp]
  · cases os <;> simp [hp]

theorem enqueue_section_out_reject {acc : GcState × List Nat} {os : Option Nat}
    (hp : (mark_section acc.1 os).1 = false) :
    (enqueue_section acc os).2 = acc.2 := by
  unfold enqueue_section
  simp [hp]

theorem enqueue_section_out_accept {acc : GcState × List Nat} {i : Nat}
    (hp : (mark_section acc.1 (some i)).1 = true) :
    (enqueue_section acc (some i)).2 = acc.2 ++ [i] := by
  unfold enqueue_section
  simp [hp]

theorem enqueue_section_le (acc : GcState × List Nat) (os : Option Nat) :
    StLe acc.1 (enqueue_section acc os).1 := by
  rw [enqueue_section_state]
  exact mark_section_le _ _

theorem enqueue_symbol_le (acc : GcState × List Nat) (sym? : Option Symbol) :
    StLe acc.1 (enqueue_symbol acc sym?).1 := by
  cases sym? with
  | none => exact StLe.refl _
  | some sym =>
    cases hf : sym.frag with
    | some fr =>
      have he : enqueue_symbol acc (some sym) = (setFrag acc.1 fr, acc.2) := by
        simp [enqueue_symbol, hf]
      rw [he]
      exact setFrag_le _ _
    | none =>
      have he : enqueue_symbol acc (some sym) = enqueue_section acc sym.inputSection := by
        simp [enqueue_symbol, hf]
      rw [he]
      exact enqueue_section_le _ _

theorem enqueue_section_inv {ctx : Ctx} {st0 : GcState} {acc : GcState × List Nat}
    {os : Option Nat} (hinv : CollInv ctx st0 acc)
    (htrig : ∀ i, os = some i → trig ctx i = true)
    (hna : ∀ i, os = some i → isNA ctx i = true → acc.1.secVisited i = true) :
    CollInv ctx st0 (enqueue_section acc os) := by
  obtain ⟨hle, hnd, hrv, hrs, hvs⟩ := hinv
  cases hp : (mark_section acc.1 os).1
  · have hs := enqueue_section_state acc os
    have ho := enqueue_section_out_reject hp
    refine ⟨?_, ?_, ?_, ?_, ?_⟩
    · rw [hs]; exact hle.trans (mark_section_le _ _)
    · rw [ho]; exact hnd
    · intro r hr
      rw [ho] at hr
      rw [hs, mark_section_reject_vis hp r]
      exact hrv r hr
    · intro r hr
      rw [ho] at hr
      exact hrs r hr
    · intro j hj
      rw [hs, mark_section_reject_vis hp j] at hj
      rcases hvs j hj with h | h | h
      · exact Or.inl h
      · exact Or.inr (Or.inl h)
      · rw [ho]; exact Or.inr (Or.inr h)
  · obtain ⟨i, hi, ha, hv⟩ := mark_section_fst_iff.mp hp
    subst hi
    have hs := enqueue_section_state acc (some i)
    have ho := enqueue_section_out_accept hp
    have hnotmem : i ∉ acc.2 := fun hmem => by
      rw [hrv i hmem] at hv; exact Bool.noConfusion hv
    have hNA : isNA ctx i = false := by
      cases hna2 : isNA ctx i
      · rfl
      · have hvv := hna i rfl hna2
        rw [hvv] at hv; exact Bool.noConfusion hv
    refine ⟨?_, ?_, ?_, ?_, ?_⟩
    · rw [hs]; exact hle.trans (mark_section_le _ _)
    · rw [ho]
      rw [← List.concat_eq_append]
      exact List.Nodup.concat hnotmem hnd
    · intro r hr
      rw [ho] at hr
      rw [hs]
      rcases List.mem_append.mp hr with h | h
      · exact (mark_section_le acc.1 (some i)).1 r (hrv r h)
      · have hri : r = i := by simpa using h
        subst hri
        exact mark_section_visited_after ha
    · intro r hr
      rw [ho] at hr
      rcases List.mem_append.mp hr with h | h
      · exact hrs r h
      · have hri : r = i := by simpa using h
        subst hri
        refine ⟨htrig r rfl, ?_, hle.vis_false hv, hNA⟩
        rw [← hle.alive r]
        exact ha
    · intro j hj
      rw [hs] at hj
      rcases mark_section_vis_sound hj with h | ⟨h1, _, _⟩
      · rcases hvs j h with h2 | h2 | h2
        · exact Or.inl h2
        · exact Or.inr (Or.inl h2)
        · rw [ho]; exact Or.inr (Or.inr (List.mem_append_left _ h2))
      · have hij : i = j := Option.some.inj h1
        subst hij
        rw [ho]
        exact Or.inr (Or.inr (List.mem_append_right _ (by simp)))

theorem enqueue_symbol_inv {ctx : Ctx} {st0 : GcState} {acc : GcState × List Nat}
    {sym? : Option Symbol} (hinv : CollInv ctx st0 acc)
    (htrig : ∀ sym i, sym? = some sym → sym.frag = none → sym.inputSection = some i →
      trig ctx i = true)
    (hna : ∀ sym i, sym? = some sym → sym.frag = none → sym.inputSection = some i →
      isNA ctx i = true → acc.1.secVisited i = true) :
    CollInv ctx st0 (enqueue_symbol acc sym?) := by
  cases sym? with
  | none => exact hinv
  | some sym =>
    cases hf : sym.frag with
    | some fr =>
      have he : enqueue_symbol acc (some sym) = (setFrag acc.1 fr, acc.2) := by
        simp [enqueue_symbol, hf]
      rw [he]
      obtain ⟨hle, hnd, hrv, hrs, hvs⟩ := hinv
      exact ⟨hle.trans (setFrag_le _ _), hnd, hrv, hrs, hvs⟩
    | none =>
      have he : enqueue_symbol acc (some sym) = enqueue_section acc sym.inputSection := by
        simp [enqueue_symbol, hf]
      rw [he]
      exact enqueue_section_inv ⟨hinv.1, hinv.2.1, hinv.2.2.1, hinv.2.2.2.1, hinv.2.2.2.2⟩
        (fun i hi => htrig sym i rfl hf hi)
        (fun i hi hna2 => hna sym i rfl hf hi hna2)

theorem collInv_setvis_NA {ctx : Ctx} {st0 : GcState} {acc : GcState × List Nat} {i : Nat}
    (hinv : CollInv ctx st0 acc) (hNA : isNA ctx i = true) :
    CollInv ctx st0 ({ acc.1 with secVisited := setTrue acc.1.secVisited i }, acc.2) := by
  obtain ⟨hle, hnd, hrv, hrs, hvs⟩ := hinv
  refine ⟨?_, hnd, ?_, hrs, ?_⟩
  · exact hle.trans ⟨fun j hj => setTrue_mono _ _ hj, fun _ h => h, rfl, rfl, rfl⟩
  · exact fun r hr => setTrue_mono _ _ (hrv r hr)
  · intro j hj
    rcases setTrue_eq_true_iff.mp hj with h | h
    · subst h; exact Or.inr (Or.inl hNA)
    · exact hvs j h

theorem scanAStep_none (ctx : Ctx) (acc : GcState × List Nat) :
    scanAStep ctx acc none = acc := rfl

theorem scanAStep_tt {ctx : Ctx} {acc : GcState × List Nat} {i : Nat}
    (halloc : (secGet ctx i).alloc = true)
    (hg : (is_init_fini (secGet ctx i) || (secGet ctx i).shType == SHT_NOTE) = true) :
    scanAStep ctx acc (some i) = enqueue_section acc (some i) := by
  simp [scanAStep, halloc, hg]

theorem scanAStep_tf {ctx : Ctx} {acc : GcState × List Nat} {i : Nat}
    (halloc : (secGet ctx i).alloc = true)
    (hg : (is_init_fini (secGet ctx i) || (secGet ctx i).shType == SHT_NOTE) = false) :
    scanAStep ctx acc (some i) = acc := by
  simp [scanAStep, halloc, hg]

theorem scanAStep_ft {ctx : Ctx} {acc : GcState × List Nat} {i : Nat}
    (halloc : (secGet ctx i).alloc = false)
    (hg : (is_init_fini (secGet ctx i) || (secGet ctx i).shType == SHT_NOTE) = true) :
    scanAStep ctx acc (some i) =
      enqueue_section ({ acc.1 with secVisited := setTrue acc.1.secVisited i }, acc.2)
        (some i) := by
  simp [scanAStep, halloc, hg]

theorem scanAStep_ff {ctx : Ctx} {acc : GcState × List Nat} {i : Nat}
    (halloc : (secGet ctx i).alloc = false)
    (hg : (is_init_fini (secGet ctx i) || (secGet ctx i).shType == SHT_NOTE) = false) :
    scanAStep ctx acc (some i) =
      ({ acc.1 with secVisited := setTrue acc.1.secVisited i }, acc.2) := by
  simp [scanAStep, halloc, hg]

theorem setvis_pair_le (acc : GcState × List Nat) (i : Nat) :
    StLe acc.1 ({ acc.1 with secVisited := setTrue acc.1.secVisited i }, acc.2).1 :=
  ⟨fun _ hj => setTrue_mono _ _ hj, fun _ h => h, rfl, rfl, rfl⟩

theorem scanAStep_le (ctx : Ctx) (acc : GcState × List Nat) (slot : Option Nat) :
    StLe acc.1 (scanAStep ctx acc slot).1 := by
  cases slot with
  | none => exact StLe.refl _
  | some i =>
    cases halloc : (secGet ctx i).alloc <;>
      cases hg : (is_init_fini (secGet ctx i) || (secGet ctx i).shType == SHT_NOTE)
    · rw [scanAStep_ff halloc hg]
      exact setvis_pair_le acc i
    · rw [scanAStep_ft halloc hg]
      exact (setvis_pair_le acc i).trans (enqueue_section_le _ _)
    · rw [scanAStep_tf halloc hg]
      exact StLe.refl _
    · rw [scanAStep_tt halloc hg]
      exact enqueue_section_le _ _

theorem scanAStep_inv {ctx : Ctx} {st0 : GcState} {acc : GcState × List Nat}
    {slot : Option Nat} (hinv : CollInv ctx st0 acc)
    (hlisted : ∀ i, slot = some i → listedSec ctx i = true) :
    CollInv ctx st0 (scanAStep ctx acc slot) := by
  cases slot with
  | none => exact hinv
  | some i =>
    have hl : listedSec ctx i = true := hlisted i rfl
    cases halloc : (secGet ctx i).alloc <;>
      cases hg : (is_init_fini (secGet ctx i) || (secGet ctx i).shType == SHT_NOTE)
    · rw [scanAStep_ff halloc hg]
      exact collInv_setvis_NA hinv (isNA_iff.mpr ⟨hl, halloc⟩)
    · rw [scanAStep_ft halloc hg]
      refine enqueue_section_inv (collInv_setvis_NA hinv (isNA_iff.mpr ⟨hl, halloc⟩))
        (fun j hj => ?_) (fun j hj _ => ?_)
      · have hji : j = i := Option.some.inj hj.symm
        subst hji
        exact trig_of_A (trigA_iff.mpr ⟨hl, hg⟩)
      · have hji : j = i := Option.some.inj hj.symm
        subst hji
        exact setTrue_self _ _
    · rw [scanAStep_tf halloc hg]
      exact hinv
    · rw [scanAStep_tt halloc hg]
      refine enqueue_section_inv hinv (fun j hj => ?_) (fun j hj hNA => ?_)
      · have hji : j = i := Option.some.inj hj.symm
        subst hji
        exact trig_of_A (trigA_iff.mpr ⟨hl, hg⟩)
      · have hji : j = i := Option.some.inj hj.symm
        subst hji
        rw [isNA_iff] at hNA
        rw [hNA.2] at halloc
        exact Bool.noConfusion halloc

theorem scanBStep_skip {ctx : Ctx} {fi : Nat} {acc : GcState × List Nat} {sid : Nat}
    (hg : ((symGet ctx sid).fileIdx == some fi && (symGet ctx sid).isExported) = false) :
    scanBStep ctx fi acc sid = acc := by
  simp [scanBStep, hg]

theorem scanBStep_enq {ctx : Ctx} {fi : Nat} {acc : GcState × List Nat} {sid : Nat}
    (hg : ((symGet ctx sid).fileIdx == some fi && (symGet ctx sid).isExported) = true) :
    scanBStep ctx fi acc sid = enqueue_symbol acc (some (symGet ctx sid)) := by
  simp [scanBStep, hg]

theorem scanBStep_le (ctx : Ctx) (fi : Nat) (acc : GcState × List Nat) (sid : Nat) :
    StLe acc.1 (scanBStep ctx fi acc sid).1 := by
  cases hg : ((symGet ctx sid).fileIdx == some fi && (symGet ctx sid).isExported)
  · rw [scanBStep_skip hg]; exact StLe.refl _
  · rw [scanBStep_enq hg]; exact enqueue_symbol_le _ _

theorem scanBStep_inv {ctx : Ctx} {st0 : GcState} {acc : GcState × List Nat}
    {fi sid : Nat} (hinv : CollInv ctx st0 acc)
    (hsite : (fi, sid) ∈ scanBItems ctx)
    (hNAvis : ∀ j, isNA ctx j = true → acc.1.secVisited j = true) :
    CollInv ctx st0 (scanBStep ctx fi acc sid) := by
  cases hg : ((symGet ctx sid).fileIdx == some fi && (symGet ctx sid).isExported)
  · rw [scanBStep_skip hg]; exact hinv
  · rw [scanBStep_enq hg]
    simp only [Bool.and_eq_true, beq_iff_eq] at hg
    refine enqueue_symbol_inv hinv (fun sym j hs hf hj => ?_) (fun sym j hs hf hj hNA => ?_)
    · have hsym : symGet ctx sid = sym := Option.some.inj hs
      subst hsym
      exact trig_of_B (trigB_iff.mpr ⟨(fi, sid), hsite, hg.1, hg.2, hf, hj⟩)
    · exact hNAvis j hNA

theorem scanCStep_le (ctx : Ctx) (acc : GcState × List Nat) (os : Option Nat) :
    StLe acc.1 (enqueue_symbol acc (os.map (symGet ctx))).1 :=
  enqueue_symbol_le _ _

theorem scanCStep_inv {ctx : Ctx} {st0 : GcState} {acc : GcState × List Nat}
    {os : Option Nat} (hinv : CollInv ctx st0 acc)
    (hsite : os ∈ scanCItems ctx)
    (hNAvis : ∀ j, isNA ctx j = true → acc.1.secVisited j = true) :
    CollInv ctx st0 (enqueue_symbol acc (os.map (symGet ctx))) := by
  refine enqueue_symbol_inv hinv (fun sym j hs hf hj => ?_) (fun sym j hs hf hj hNA => ?_)
  · cases os with
    | none => exact Option.noConfusion hs
    | some sid =>
      have hsym : symGet ctx sid = sym := Option.some.inj hs
      subst hsym
      exact trig_of_C (trigC_iff.mpr ⟨some sid, hsite, sid, rfl, hf, hj⟩)
  · exact hNAvis j hNA

theorem scanDStep_le (ctx : Ctx) (acc : GcState × List Nat) (rsym : Nat) :
    StLe acc.1 (enqueue_section acc (symGet ctx rsym).inputSection).1 :=
  enqueue_section_le _ _

theorem scanDStep_inv {ctx : Ctx} {st0 : GcState} {acc : GcState × List Nat}
    {rsym : Nat} (hinv : CollInv ctx st0 acc)
    (hsite : rsym ∈ scanDItems ctx)
    (hNAvis : ∀ j, isNA ctx j = true → acc.1.secVisited j = true) :
    CollInv ctx st0 (enqueue_section acc (symGet ctx rsym).inputSection) := by
  refine enqueue_section_inv hinv (fun j hj => ?_) (fun j hj hNA => ?_)
  · exact trig_of_D (trigD_iff.mpr ⟨rsym, hsite, hj⟩)
  · exact hNAvis j hNA

theorem scanAStep_cov_NA {ctx : Ctx} {acc : GcState × List Nat} {i : Nat}
    (halloc : (secGet ctx i).alloc = false) :
    (scanAStep ctx acc (some i)).1.secVisited i = true := by
  cases hg : (is_init_fini (secGet ctx i) || (secGet ctx i).shType == SHT_NOTE)
  · rw [scanAStep_ff halloc hg]
    exact setTrue_self _ _
  · rw [scanAStep_ft halloc hg, enqueue_section_state]
    exact (mark_section_le _ _).1 i (setTrue_self _ _)

theorem scanAStep_cov_trig {ctx : Ctx} {acc : GcState × List Nat} {i : Nat}
    (ha : acc.1.secAlive i = true)
    (hg : (is_init_fini (secGet ctx i) || (secGet ctx i).shType == SHT_NOTE) = true) :
    (scanAStep ctx acc (some i)).1.secVisited i = true := by
  cases halloc : (secGet ctx i).alloc
  · rw [scanAStep_ft halloc hg, enqueue_section_state]
    exact (mark_section_le _ _).1 i (setTrue_self _ _)
  · rw [scanAStep_tt halloc hg, enqueue_section_state]
    exact mark_section_visited_after ha

theorem scanBStep_cov_sec {ctx : Ctx} {acc : GcState × List Nat} {fi sid i : Nat}
    (hfi : (symGet ctx sid).fileIdx = some fi)
    (hex : (symGet ctx sid).isExported = true)
    (hf : (symGet ctx sid).frag = none)
    (hi : (symGet ctx sid).inputSection = some i)
    (ha : acc.1.secAlive i = true) :
    (scanBStep ctx fi acc sid).1.secVisited i = true := by
  have hg : ((symGet ctx sid).fileIdx == some fi && (symGet ctx sid).isExported) = true := by
    simp [hfi, hex]
  rw [scanBStep_enq hg]
  have he : enqueue_symbol acc (some (symGet ctx sid)) =
      enqueue_section acc (symGet ctx sid).inputSection := by
    simp [enqueue_symbol, hf]
  rw [he, hi, enqueue_section_state]
  exact mark_section_visited_after ha

theorem scanBStep_cov_frag {ctx : Ctx} {acc : GcState × List Nat} {fi sid fr : Nat}
    (hfi : (symGet ctx sid).fileIdx = some fi)
    (hex : (symGet ctx sid).isExported = true)
    (hf : (symGet ctx sid).frag = some fr) :
    (scanBStep ctx fi acc sid).1.fragAlive fr = true := by
  have hg : ((symGet ctx sid).fileIdx == some fi && (symGet ctx sid).isExported) = true := by
    simp [hfi, hex]
  rw [scanBStep_enq hg]
  have he : enqueue_symbol acc (some (symGet ctx sid)) = (setFrag acc.1 fr, acc.2) := by
    simp [enqueue_symbol, hf]
  rw [he]
  exact setTrue_self _ _

theorem scanCStep_cov_sec {ctx : Ctx} {acc : GcState × List Nat} {sid i : Nat}
    (hf : (symGet ctx sid).frag = none)
    (hi : (symGet ctx sid).inputSection = some i)
    (ha : acc.1.secAlive i = true) :
    (enqueue_symbol acc ((some sid : Option Nat).map (symGet ctx))).1.secVisited i = true := by
  have he : enqueue_symbol acc ((some sid : Option Nat).map (symGet ctx)) =
      enqueue_section acc (symGet ctx sid).inputSection := by
    simp [enqueue_symbol, hf]
  rw [he, hi, enqueue_section_state]
  exact mark_section_visited_after ha

theorem scanCStep_cov_frag {ctx : Ctx} {acc : GcState × List Nat} {sid fr : Nat}
    (hf : (symGet ctx sid).frag = some fr) :
    (enqueue_symbol acc ((some sid : Option Nat).map (symGet ctx))).1.fragAlive fr = true := by
  have he : enqueue_symbol acc ((some sid : Option Nat).map (symGet ctx)) =
      (setFrag acc.1 fr, acc.2) := by
    simp [enqueue_symbol, hf]
  rw [he]
  exact setTrue_self _ _

theorem scanDStep_cov {ctx : Ctx} {acc : GcState × List Nat} {rsym i : Nat}
    (hi : (symGet ctx rsym).inputSection = some i)
    (ha : acc.1.secAlive i = true) :
    (enqueue_section acc (symGet ctx rsym).inputSection).1.secVisited i = true := by
  rw [hi, enqueue_section_state]
  exact mark_section_visited_after ha

theorem scanA_le (ctx : Ctx) (acc : GcState × List Nat) : StLe acc.1 (scanA ctx acc).1 := by
  rw [scanA_eq]
  exact foldl_le_gen _ (scanAStep_le ctx) _ acc

theorem scanB_le (ctx : Ctx) (acc : GcState × List Nat) : StLe acc.1 (scanB ctx acc).1 := by
  rw [scanB_eq]
  exact foldl_le_gen (fun a (pr : Nat × Nat) => scanBStep ctx pr.1 a pr.2)
    (fun a pr => scanBStep_le ctx pr.1 a pr.2) _ acc

theorem scanC_le (ctx : Ctx) (acc : GcState × List Nat) : StLe acc.1 (scanC ctx acc).1 := by
  rw [scanC_eq]
  exact foldl_le_gen _ (fun a os => scanCStep_le ctx a os) _ acc

theorem scanD_le (ctx : Ctx) (acc : GcState × List Nat) : StLe acc.1 (scanD ctx acc).1 := by
  rw [scanD_eq]
  exact foldl_le_gen _ (fun a rsym => scanDStep_le ctx a rsym) _ acc

theorem collect_eq (ctx : Ctx) (st : GcState) :
    collect_root_set ctx st = scanD ctx (scanC ctx (scanB ctx (scanA ctx (st, [])))) := rfl

theorem collect_le (ctx : Ctx) (st : GcState) : StLe st (collect_root_set ctx st).1 := by
  rw [collect_eq]
  exact (((scanA_le ctx (st, [])).trans (scanB_le ctx _)).trans (scanC_le ctx _)).trans
    (scanD_le ctx _)

theorem collect_base_inv (ctx : Ctx) (st : GcState) : CollInv ctx st (st, []) :=
  ⟨StLe.refl st, List.nodup_nil, by simp, by simp, fun _ h => Or.inl h⟩

theorem scanA_inv {ctx : Ctx} {st0 : GcState} {acc : GcState × List Nat}
    (hinv : CollInv ctx st0 acc) : CollInv ctx st0 (scanA ctx acc) := by
  rw [scanA_eq]
  refine foldl_inv_gen (scanAStep ctx) (CollInv ctx st0) (scanAItems ctx) ?_ acc hinv
  intro a x hx hi
  exact scanAStep_inv hi (fun i h => listed_iff.mpr (h ▸ hx))

theorem scanA_NA {ctx : Ctx} {acc : GcState × List Nat} {j : Nat}
    (hNA : isNA ctx j = true) : (scanA ctx acc).1.secVisited j = true := by
  rw [scanA_eq]
  obtain ⟨hl, hal⟩ := isNA_iff.mp hNA
  exact foldl_cov_gen (scanAStep ctx) (scanAStep_le ctx) (fun _ => True) (fun _ _ _ => trivial)
    (fun s => s.secVisited j = true) (fun a b hle h => hle.1 j h)
    (some j) (fun a _ => scanAStep_cov_NA hal) (scanAItems ctx) (listed_iff.mp hl) acc trivial

theorem scanB_inv {ctx : Ctx} {st0 : GcState} {acc : GcState × List Nat}
    (hinv : CollInv ctx st0 acc)
    (hNAvis : ∀ j, isNA ctx j = true → acc.1.secVisited j = true) :
    CollInv ctx st0 (scanB ctx acc) ∧
      (∀ j, isNA ctx j = true → (scanB ctx acc).1.secVisited j = true) := by
  rw [scanB_eq]
  refine foldl_inv_gen (fun a (pr : Nat × Nat) => scanBStep ctx pr.1 a pr.2)
    (fun a => CollInv ctx st0 a ∧ (∀ j, isNA ctx j = true → a.1.secVisited j = true))
    (scanBItems ctx) ?_ acc ⟨hinv, hNAvis⟩
  intro a pr hpr ⟨hi, hna⟩
  refine ⟨?_, fun j hj => (scanBStep_le ctx pr.1 a pr.2).1 j (hna j hj)⟩
  exact scanBStep_inv hi hpr hna

theorem scanC_inv {ctx : Ctx} {st0 : GcState} {acc : GcState × List Nat}
    (hinv : CollInv ctx st0 acc)
    (hNAvis : ∀ j, isNA ctx j = true → acc.1.secVisited j = true) :
    CollInv ctx st0 (scanC ctx acc) ∧
      (∀ j, isNA ctx j = true → (scanC ctx acc).1.secVisited j = true) := by
  rw [scanC_eq]
  refine foldl_inv_gen (fun a os => enqueue_symbol a (os.map (symGet ctx)))
    (fun a => CollInv ctx st0 a ∧ (∀ j, isNA ctx j = true → a.1.secVisited j = true))
    (scanCItems ctx) ?_ acc ⟨hinv, hNAvis⟩
  intro a os hos ⟨hi, hna⟩
  exact ⟨scanCStep_inv hi hos hna, fun j hj => (scanCStep_le ctx a os).1 j (hna j hj)⟩

theorem scanD_inv {ctx : Ctx} {st0 : GcState} {acc : GcState × List Nat}
    (hinv : CollInv ctx st0 acc)
    (hNAvis : ∀ j, isNA ctx j = true → acc.1.secVisited j = true) :
    CollInv ctx st0 (scanD ctx acc) := by
  rw [scanD_eq]
  refine (foldl_inv_gen (fun a rsym => enqueue_section a (symGet ctx rsym).inputSection)
    (fun a => CollInv ctx st0 a ∧ (∀ j, isNA ctx j = true → a.1.secVisited j = true))
    (scanDItems ctx) ?_ acc ⟨hinv, hNAvis⟩).1
  intro a rsym hr ⟨hi, hna⟩
  exact ⟨scanDStep_inv hi hr hna, fun j hj => (scanDStep_le ctx a rsym).1 j (hna j hj)⟩

theorem collect_inv (ctx : Ctx) (st : GcState) :
    CollInv ctx st (collect_root_set ctx st) := by
  rw [collect_eq]
  have i1 := scanA_inv (collect_base_inv ctx st)
  have n1 : ∀ j, isNA ctx j = true → (scanA ctx (st, [])).1.secVisited j = true :=
    fun j hj => scanA_NA hj
  obtain ⟨i2, n2⟩ := scanB_inv i1 n1
  obtain ⟨i3, n3⟩ := scanC_inv i2 n2
  exact scanD_inv i3 n3

theorem collect_NA (ctx : Ctx) (st : GcState) {j : Nat} (hNA : isNA ctx j = true) :
    (collect_root_set ctx st).1.secVisited j = true := by
  rw [collect_eq]
  exact (scanD_le ctx _).1 j ((scanC_le ctx _).1 j ((scanB_le ctx _).1 j (scanA_NA hNA)))

theorem collect_trig (ctx : Ctx) (st : GcState) {j : Nat} (htrig : trig ctx j = true)
    (halive : st.secAlive j = true) :
    (collect_root_set ctx st).1.secVisited j = true := by
  rw [collect_eq]
  rcases trig_cases htrig with h | h | h | h
  · obtain ⟨hl, hg⟩ := trigA_iff.mp h
    refine (scanD_le ctx _).1 j ((scanC_le ctx _).1 j ((scanB_le ctx _).1 j ?_))
    rw [scanA_eq]
    exact foldl_cov_gen (scanAStep ctx) (scanAStep_le ctx)
      (fun a => a.1.secAlive j = true)
      (fun a x ha => by
        show (scanAStep ctx a x).1.secAlive j = true
        rw [(scanAStep_le ctx a x).alive j]; exact ha)
      (fun s => s.secVisited j = true) (fun a b hle hv => hle.1 j hv)
      (some j) (fun a hI => scanAStep_cov_trig hI hg)
      (scanAItems ctx) (listed_iff.mp hl) (st, []) halive
  · obtain ⟨pr, hpr, hfi, hex, hf, hi⟩ := trigB_iff.mp h
    refine (scanD_le ctx _).1 j ((scanC_le ctx _).1 j ?_)
    rw [scanB_eq]
    refine foldl_cov_gen (fun a (x : Nat × Nat) => scanBStep ctx x.1 a x.2)
      (fun a x => scanBStep_le ctx x.1 a x.2)
      (fun a => a.1.secAlive j = true)
      (fun a x ha => by
        show (scanBStep ctx x.1 a x.2).1.secAlive j = true
        rw [(scanBStep_le ctx x.1 a x.2).alive j]; exact ha)
      (fun s => s.secVisited j = true) (fun a b hle hv => hle.1 j hv)
      pr (fun a hI => scanBStep_cov_sec hfi hex hf hi hI)
      (scanBItems ctx) hpr (scanA ctx (st, [])) ?_
    show (scanA ctx (st, [])).1.secAlive j = true
    rw [(scanA_le ctx (st, [])).alive j]
    exact halive
  · obtain ⟨os, hos, sid, heq, hf, hi⟩ := trigC_iff.mp h
    subst heq
    refine (scanD_le ctx _).1 j ?_
    rw [scanC_eq]
    refine foldl_cov_gen (fun a os => enqueue_symbol a (os.map (symGet ctx)))
      (fun a os => scanCStep_le ctx a os)
      (fun a => a.1.secAlive j = true)
      (fun a x ha => by
        show (enqueue_symbol a (x.map (symGet ctx))).1.secAlive j = true
        rw [(scanCStep_le ctx a x).alive j]; exact ha)
      (fun s => s.secVisited j = true) (fun a b hle hv => hle.1 j hv)
      (some sid) (fun a hI => scanCStep_cov_sec hf hi hI)
      (scanCItems ctx) hos (scanB ctx (scanA ctx (st, []))) ?_
    show (scanB ctx (scanA ctx (st, []))).1.secAlive j = true
    rw [(scanB_le ctx _).alive j, (scanA_le ctx _).alive j]
    exact halive
  · obtain ⟨rsym, hr, hi⟩ := trigD_iff.mp h
    rw [scanD_eq]
    refine foldl_cov_gen (fun a rsym => enqueue_section a (symGet ctx rsym).inputSection)
      (fun a rsym => scanDStep_le ctx a rsym)
      (fun a => a.1.secAlive j = true)
      (fun a x ha => by
        show (enqueue_section a (symGet ctx x).inputSection).1.secAlive j = true
        rw [(scanDStep_le ctx a x).alive j]; exact ha)
      (fun s => s.secVisited j = true) (fun a b hle hv => hle.1 j hv)
      rsym (fun a hI => scanDStep_cov hi hI)
      (scanDItems ctx) hr (scanC ctx (scanB ctx (scanA ctx (st, [])))) ?_
    show (scanC ctx (scanB ctx (scanA ctx (st, [])))).1.secAlive j = true
    rw [(scanC_le ctx _).alive j, (scanB_le ctx _).alive j, (scanA_le ctx _).alive j]
    exact halive

theorem collect_fragBC (ctx : Ctx) (st : GcState) {fr : Nat}
    (hc : fragCandBC ctx fr = true) :
    (collect_root_set ctx st).1.fragAlive fr = true := by
  rw [collect_eq]
  rcases fragCandBC_iff.mp hc with ⟨pr, hpr, hfi, hex, hfr⟩ | ⟨os, hos, sid, heq, hfr⟩
  · refine (scanD_le ctx _).2.1 fr ((scanC_le ctx _).2.1 fr ?_)
    rw [scanB_eq]
    exact foldl_cov_gen (fun a (x : Nat × Nat) => scanBStep ctx x.1 a x.2)
      (fun a x => scanBStep_le ctx x.1 a x.2)
      (fun _ => True) (fun _ _ _ => trivial)
      (fun s => s.fragAlive fr = true) (fun a b hle hv => hle.2.1 fr hv)
      pr (fun a _ => scanBStep_cov_frag hfi hex hfr)
      (scanBItems ctx) hpr (scanA ctx (st, [])) trivial
  · subst heq
    refine (scanD_le ctx _).2.1 fr ?_
    rw [scanC_eq]
    exact foldl_cov_gen (fun a os => enqueue_symbol a (os.map (symGet ctx)))
      (fun a os => scanCStep_le ctx a os)
      (fun _ => True) (fun _ _ _ => trivial)
      (fun s => s.fragAlive fr = true) (fun a b hle hv => hle.2.1 fr hv)
      (some sid) (fun a _ => scanCStep_cov_frag hfr)
      (scanCItems ctx) hos (scanB ctx (scanA ctx (st, []))) trivial

theorem foldl_reduceOption {β : Type} (f : β → Option Nat → β) (hf : ∀ s, f s none = s) :
    ∀ (l : List (Option Nat)) (s : β),
      l.foldl f s = l.reduceOption.foldl (fun s2 i => f s2 (some i)) s := by
  intro l
  induction l with
  | nil => intro s; rfl
  | cons x xs ih =>
    intro s
    cases x with
    | none =>
      simp only [List.foldl_cons, List.reduceOption_cons_of_none, hf]
      exact ih s
    | some i =>
      simp only [List.foldl_cons, List.reduceOption_cons_of_some]
      exact ih (f s (some i))

theorem sweep_eq (ctx : Ctx) (st : GcState) :
    sweep ctx st =
      (sectionIds ctx).foldl (fun s i => sweepStep ctx s (some i)) st := by
  unfold sweep sectionIds
  rw [List.foldl_flatten, List.foldl_map]
  have hinner : ∀ (l : List (Option Nat)) (s : GcState),
      l.foldl (sweepStep ctx) s =
        l.reduceOption.foldl (fun s2 i => sweepStep ctx s2 (some i)) s :=
    foldl_reduceOption (sweepStep ctx) (fun _ => rfl)
  have houter : ∀ (ls : List ObjectFile) (s : GcState),
      ls.foldl (fun s2 f => f.sections.foldl (sweepStep ctx) s2) s =
        ls.foldl (fun s2 f =>
          f.sections.reduceOption.foldl (fun s3 i => sweepStep ctx s3 (some i)) s2) s := by
    intro ls
    induction ls with
    | nil => intro s; rfl
    | cons f fs ih =>
      intro s
      simp only [List.foldl_cons]
      rw [hinner]
      exact ih _
  rw [houter]

theorem sweepStep_vis_frag (ctx : Ctx) (s : GcState) (slot : Option Nat) :
    (sweepStep ctx s slot).secVisited = s.secVisited ∧
    (sweepStep ctx s slot).fragAlive = s.fragAlive := by
  cases slot with
  | none => exact ⟨rfl, rfl⟩
  | some i =>
    cases hc : (s.secAlive i && !s.secVisited i) <;> simp [sweepStep, hc]

theorem sweepStep_alive_self (ctx : Ctx) (s : GcState) (i : Nat) :
    (sweepStep ctx s (some i)).secAlive i = (s.secAlive i && s.secVisited i) := by
  cases ha : s.secAlive i <;> cases hv : s.secVisited i <;>
    simp [sweepStep, ha, hv, setFalse]

theorem sweepStep_alive_other (ctx : Ctx) (s : GcState) {i x : Nat} (h : i ≠ x) :
    (sweepStep ctx s (some x)).secAlive i = s.secAlive i := by
  cases hc : (s.secAlive x && !s.secVisited x) <;> simp [sweepStep, hc, setFalse, h]

theorem sweepFold_vis_frag (ctx : Ctx) :
    ∀ (L : List Nat) (st : GcState),
      ((L.foldl (fun s i => sweepStep ctx s (some i)) st).secVisited = st.secVisited ∧
       (L.foldl (fun s i => sweepStep ctx s (some i)) st).fragAlive = st.fragAlive) := by
  intro L
  induction L with
  | nil => intro st; exact ⟨rfl, rfl⟩
  | cons x xs ih =>
    intro st
    simp only [List.foldl_cons]
    obtain ⟨h1, h2⟩ := ih (sweepStep ctx st (some x))
    obtain ⟨h3, h4⟩ := sweepStep_vis_frag ctx st (some x)
    exact ⟨h1.trans h3, h2.trans h4⟩

theorem sweepFold_alive (ctx : Ctx) (i : Nat) :
    ∀ (L : List Nat) (st : GcState),
      (L.foldl (fun s x => sweepStep ctx s (some x)) st).secAlive i =
        if i ∈ L then st.secAlive i && st.secVisited i else st.secAlive i := by
  intro L
  induction L with
  | nil => intro st; simp
  | cons x xs ih =>
    intro st
    simp only [List.foldl_cons]
    by_cases hxi : i = x
    · subst hxi
      rw [ih (sweepStep ctx st (some i))]
      rw [sweepStep_alive_self, (sweepStep_vis_frag ctx st (some i)).1]
      have hmem : i ∈ i :: xs := by simp
      rw [if_pos hmem]
      by_cases hin : i ∈ xs
      · rw [if_pos hin]
        cases st.secAlive i <;> cases st.secVisited i <;> rfl
      · rw [if_neg hin]
    · rw [ih (sweepStep ctx st (some x))]
      rw [sweepStep_alive_other ctx st hxi, (sweepStep_vis_frag ctx st (some x)).1]
      have hmm : (i ∈ x :: xs) ↔ i ∈ xs := by
        simp [List.mem_cons, hxi]
      by_cases hin : i ∈ xs
      · rw [if_pos hin, if_pos (hmm.mpr hin)]
      · rw [if_neg hin, if_neg (fun hmem => hin (hmm.mp hmem))]

theorem mem_sectionIds {ctx : Ctx} {i : Nat} :
    i ∈ sectionIds ctx ↔ listedSec ctx i = true := by
  unfold sectionIds
  rw [listed_iff]
  unfold scanAItems
  simp only [List.mem_flatten, List.mem_map]
  constructor
  · rintro ⟨l, ⟨f, hf, rfl⟩, hi⟩
    exact ⟨f.sections, ⟨f, hf, rfl⟩, List.reduceOption_mem_iff.mp hi⟩
  · rintro ⟨l, ⟨f, hf, rfl⟩, hi⟩
    exact ⟨f.sections.reduceOption, ⟨f, hf, rfl⟩, List.reduceOption_mem_iff.mpr hi⟩

theorem sweep_alive (ctx : Ctx) (st : GcState) (i : Nat) :
    (sweep ctx st).secAlive i =
      (st.secAlive i && (!(listedSec ctx i) || st.secVisited i)) := by
  rw [sweep_eq, sweepFold_alive]
  cases hl : listedSec ctx i
  · rw [if_neg (fun hmem => by rw [mem_sectionIds.mp hmem] at hl; exact Bool.noConfusion hl)]
    simp
  · rw [if_pos (mem_sectionIds.mpr hl)]
    simp

theorem sweep_vis (ctx : Ctx) (st : GcState) :
    (sweep ctx st).secVisited = st.secVisited := by
  rw [sweep_eq]
  exact (sweepFold_vis_frag ctx (sectionIds ctx) st).1

theorem sweep_frag (ctx : Ctx) (st : GcState) :
    (sweep ctx st).fragAlive = st.fragAlive := by
  rw [sweep_eq]
  exact (sweepFold_vis_frag ctx (sectionIds ctx) st).2

theorem sweepFold_cnt (ctx : Ctx) :
    ∀ (L : List Nat), L.Nodup → ∀ (st : GcState),
      (L.foldl (fun s x => sweepStep ctx s (some x)) st).garbageSections =
        st.garbageSections + (L.filter (fun i => st.secAlive i && !st.secVisited i)).length ∧
      (L.foldl (fun s x => sweepStep ctx s (some x)) st).gcLog =
        st.gcLog ++ (if ctx.printGcSections = true then
          L.filter (fun i => st.secAlive i && !st.secVisited i) else []) := by
  intro L
  induction L with
  | nil =>
    intro _ st
    constructor
    · rfl
    · cases ctx.printGcSections <;> simp
  | cons x xs ih =>
    intro hnd st
    have hx : x ∉ xs := (List.nodup_cons.mp hnd).1
    have hnd2 : xs.Nodup := (List.nodup_cons.mp hnd).2
    simp only [List.foldl_cons]
    have hfilter : ∀ s2 : GcState, (∀ j ∈ xs, s2.secAlive j = st.secAlive j) →
        (∀ j, s2.secVisited j = st.secVisited j) →
        xs.filter (fun i => s2.secAlive i && !s2.secVisited i) =
          xs.filter (fun i => st.secAlive i && !st.secVisited i) := by
      intro s2 hA hV
      apply List.filter_congr
      intro j hj
      rw [hA j hj, hV j]
    cases hc : (st.secAlive x && !st.secVisited x)
    · have hstep : sweepStep ctx st (some x) = st := by
        simp [sweepStep, hc]
      rw [hstep]
      obtain ⟨h1, h2⟩ := ih hnd2 st
      rw [List.filter_cons_of_neg (by simp [hc])]
      exact ⟨h1, h2⟩
    · have hstep : sweepStep ctx st (some x) =
          { st with
            secAlive := setFalse st.secAlive x
            garbageSections := st.garbageSections + 1
            gcLog := if ctx.printGcSections then st.gcLog ++ [x] else st.gcLog } := by
        simp [sweepStep, hc]
      rw [hstep]
      obtain ⟨h1, h2⟩ := ih hnd2 _
      have hfeq := hfilter
        { st with
          secAlive := setFalse st.secAlive x
          garbageSections := st.garbageSections + 1
          gcLog := if ctx.printGcSections then st.gcLog ++ [x] else st.gcLog }
        (fun j hj => by
          show setFalse st.secAlive x j = st.secAlive j
          have hjx : j ≠ x := fun he => hx (he ▸ hj)
          simp [setFalse, hjx])
        (fun j => rfl)
      rw [hfeq] at h1 h2
      constructor
      · rw [h1]
        rw [List.filter_cons_of_pos (by simp [hc])]
        simp only [List.length_cons]
        omega
      · rw [h2]
        rw [List.filter_cons_of_pos (by simp [hc])]
        cases hp : ctx.printGcSections
        · simp
        · simp [List.append_assoc]

theorem sweep_cnt (ctx : Ctx) (st : GcState) (HN : (sectionIds ctx).Nodup) :
    (sweep ctx st).garbageSections = st.garbageSections + (killList ctx st).length ∧
    (sweep ctx st).gcLog =
      st.gcLog ++ (if ctx.printGcSections = true then killList ctx st else []) := by
  rw [sweep_eq]
  exact sweepFold_cnt ctx (sectionIds ctx) HN st

theorem foldl_le_st {α : Type} (f : GcState → α → GcState)
    (hle : ∀ s x, StLe s (f s x)) :
    ∀ (l : List α) (s : GcState), StLe s (l.foldl f s) := by
  intro l
  induction l with
  | nil => intro s; exact StLe.refl _
  | cons x xs ih => intro s; exact (hle s x).trans (ih (f s x))

theorem foldl_cov_st {α : Type} (f : GcState → α → GcState)
    (hle : ∀ s x, StLe s (f s x))
    (P : GcState → Prop) (hmono : ∀ a b, StLe a b → P a → P b)
    (x : α) (hstep : ∀ s, P (f s x)) :
    ∀ (l : List α), x ∈ l → ∀ s, P (l.foldl f s) := by
  intro l
  induction l with
  | nil => intro hx; simp at hx
  | cons y ys ih =>
    intro hx s
    simp only [List.foldl_cons]
    rcases List.mem_cons.mp hx with h | h
    · subst h
      exact hmono _ _ (foldl_le_st f hle ys (f s x)) (hstep s)
    · exact ih h (f s y)

theorem mnf_eq (ctx : Ctx) (st : GcState) :
    mark_nonalloc_fragments ctx st =
      ((ctx.objs.map (fun f => f.fragments)).flatten).foldl
        (fun s2 fr => if !(fragGet ctx fr).outputAlloc then setFrag s2 fr else s2) st := by
  unfold mark_nonalloc_fragments
  rw [List.foldl_flatten, List.foldl_map]

theorem mnfStep_le (ctx : Ctx) (s : GcState) (fr : Nat) :
    StLe s (if !(fragGet ctx fr).outputAlloc then setFrag s fr else s) := by
  cases h : (fragGet ctx fr).outputAlloc <;> simp [h]
  · exact setFrag_le s fr
  · exact StLe.refl s

theorem mnf_le (ctx : Ctx) (st : GcState) : StLe st (mark_nonalloc_fragments ctx st) := by
  rw [mnf_eq]
  exact foldl_le_st _ (mnfStep_le ctx) _ st

theorem mnfFold_same (ctx : Ctx) :
    ∀ (L : List Nat) (st : GcState),
      ((L.foldl (fun s2 fr => if !(fragGet ctx fr).outputAlloc then setFrag s2 fr else s2)
          st).secAlive = st.secAlive ∧
       (L.foldl (fun s2 fr => if !(fragGet ctx fr).outputAlloc then setFrag s2 fr else s2)
          st).secVisited = st.secVisited ∧
       (L.foldl (fun s2 fr => if !(fragGet ctx fr).outputAlloc then setFrag s2 fr else s2)
          st).garbageSections = st.garbageSections ∧
       (L.foldl (fun s2 fr => if !(fragGet ctx fr).outputAlloc then setFrag s2 fr else s2)
          st).gcLog = st.gcLog) := by
  intro L
  induction L with
  | nil => intro st; exact ⟨rfl, rfl, rfl, rfl⟩
  | cons x xs ih =>
    intro st
    simp only [List.foldl_cons]
    obtain ⟨i1, i2, i3, i4⟩ :=
      ih (if !(fragGet ctx x).outputAlloc then setFrag st x else st)
    have hstep : (if !(fragGet ctx x).outputAlloc then setFrag st x else st).secAlive =
          st.secAlive ∧
        (if !(fragGet ctx x).outputAlloc then setFrag st x else st).secVisited =
          st.secVisited ∧
        (if !(fragGet ctx x).outputAlloc then setFrag st x else st).garbageSections =
          st.garbageSections ∧
        (if !(fragGet ctx x).outputAlloc then setFrag st x else st).gcLog = st.gcLog := by
      cases h : (fragGet ctx x).outputAlloc <;> simp [h, setFrag]
    exact ⟨i1.trans hstep.1, i2.trans hstep.2.1, i3.trans hstep.2.2.1, i4.trans hstep.2.2.2⟩

theorem mnf_same (ctx : Ctx) (st : GcState) :
    (mark_nonalloc_fragments ctx st).secAlive = st.secAlive ∧
    (mark_nonalloc_fragments ctx st).secVisited = st.secVisited ∧
    (mark_nonalloc_fragments ctx st).garbageSections = st.garbageSections ∧
    (mark_nonalloc_fragments ctx st).gcLog = st.gcLog := by
  rw [mnf_eq]
  exact mnfFold_same ctx _ st

theorem mnf_cov {ctx : Ctx} {st : GcState} {file : ObjectFile} {fr : Nat}
    (hf : file ∈ ctx.objs) (hfr : fr ∈ file.fragments)
    (hna : (fragGet ctx fr).outputAlloc = false) :
    (mark_nonalloc_fragments ctx st).fragAlive fr = true := by
  rw [mnf_eq]
  have hmem : fr ∈ (ctx.objs.map (fun f => f.fragments)).flatten := by
    simp only [List.mem_flatten, List.mem_map]
    exact ⟨file.fragments, ⟨file, hf, rfl⟩, hfr⟩
  refine foldl_cov_st _ (mnfStep_le ctx) (fun s => s.fragAlive fr = true)
    (fun a b hle h => hle.2.1 fr h) fr (fun s => ?_) _ hmem st
  simp [hna, setFrag]
  exact setTrue_self _ _

theorem markLoop_le (ctx : Ctx) (b : Nat) :
    ∀ fuel Q st, StLe st (markLoop ctx b fuel Q st) := by
  intro fuel
  induction fuel with
  | zero => intro Q st; exact StLe.refl _
  | succ n ih =>
    intro Q st
    cases Q with
    | nil => exact StLe.refl _
    | cons q rest =>
      have hunf : markLoop ctx b (n + 1) (q :: rest) st =
          markLoop ctx b n (rest ++ (visitGo ctx b q st).2) (visitGo ctx b q st).1 := by
        simp only [markLoop]
      rw [hunf]
      exact (visitGo_spec ctx b q st).le.trans (ih _ _)

theorem gc_eq (ctx : Ctx) (st : GcState) :
    gc_sections ctx st =
      sweep ctx (mark ctx (collect_root_set ctx (mark_nonalloc_fragments ctx st)).2
        (collect_root_set ctx (mark_nonalloc_fragments ctx st)).1) := rfl

theorem gc_le_mark (ctx : Ctx) (st : GcState) :
    StLe st (mark ctx (collect_root_set ctx (mark_nonalloc_fragments ctx st)).2
      (collect_root_set ctx (mark_nonalloc_fragments ctx st)).1) := by
  exact ((mnf_le ctx st).trans (collect_le ctx _)).trans (markLoop_le ctx 3 _ _ _)

theorem collect_char_vis (ctx : Ctx) (st : GcState) (H0 : ∀ j, st.secVisited j = false)
    (i : Nat) :
    (collect_root_set ctx st).1.secVisited i = true ↔
      (isNA ctx i = true ∨ (trig ctx i = true ∧ st.secAlive i = true)) := by
  obtain ⟨hle, hnd, hrv, hrs, hvs⟩ := collect_inv ctx st
  constructor
  · intro h
    rcases hvs i h with h1 | h1 | h1
    · rw [H0 i] at h1; exact Bool.noConfusion h1
    · exact Or.inl h1
    · obtain ⟨ht, ha, _, _⟩ := hrs i h1
      exact Or.inr ⟨ht, ha⟩
  · rintro (h | ⟨ht, ha⟩)
    · exact collect_NA ctx st h
    · exact collect_trig ctx st ht ha

theorem collect_char_roots (ctx : Ctx) (st : GcState) (H0 : ∀ j, st.secVisited j = false)
    (i : Nat) :
    i ∈ (collect_root_set ctx st).2 ↔
      (trig ctx i = true ∧ st.secAlive i = true ∧ isNA ctx i = false) := by
  obtain ⟨hle, hnd, hrv, hrs, hvs⟩ := collect_inv ctx st
  constructor
  · intro h
    obtain ⟨ht, ha, _, hna⟩ := hrs i h
    exact ⟨ht, ha, hna⟩
  · rintro ⟨ht, ha, hna⟩
    have hv := collect_trig ctx st ht ha
    rcases hvs i hv with h1 | h1 | h1
    · rw [H0 i] at h1; exact Bool.noConfusion h1
    · rw [h1] at hna; exact Bool.noConfusion hna
    · exact h1

theorem reaches_not_NA {ctx : Ctx} {alive : Nat → Bool} {i : Nat}
    (h : Reaches ctx alive i) : isNA ctx i = false := by
  cases h with
  | root _ _ _ hna => exact hna
  | step _ _ _ _ _ hna => exact hna

theorem reaches_alive {ctx : Ctx} {alive : Nat → Bool} {i : Nat}
    (h : Reaches ctx alive i) : alive i = true := by
  cases h with
  | root _ _ ha _ => exact ha
  | step _ _ _ _ ha _ => exact ha

theorem mark_final_vis (ctx : Ctx) (st : GcState) (H0 : ∀ j, st.secVisited j = false)
    (HA : HAlive ctx st) (i : Nat) :
    (mark ctx (collect_root_set ctx st).2 (collect_root_set ctx st).1).secVisited i =
        true ↔
      (isNA ctx i = true ∨ Reaches ctx st.secAlive i) := by
  obtain ⟨hle, hnd, hrv, hrs, hvs⟩ := collect_inv ctx st
  have HA1 : HAlive ctx (collect_root_set ctx st).1 := HAlive_of_le (collect_le ctx st) HA
  have HF : (collect_root_set ctx st).2.length + uCount ctx (collect_root_set ctx st).1 ≤
      ctx.sections.length + (collect_root_set ctx st).2.length := by
    have := uCount_le ctx (collect_root_set ctx st).1
    omega
  obtain ⟨_, hvis, _⟩ := markLoop_spec ctx 3 (ctx.sections.length +
    (collect_root_set ctx st).2.length) (collect_root_set ctx st).2
    (collect_root_set ctx st).1 HA1 hrv HF
  rw [show mark ctx (collect_root_set ctx st).2 (collect_root_set ctx st).1 =
    markLoop ctx 3 (ctx.sections.length + (collect_root_set ctx st).2.length)
      (collect_root_set ctx st).2 (collect_root_set ctx st).1 from rfl]
  rw [hvis i]
  constructor
  · rintro (h | h)
    · rcases (collect_char_vis ctx st H0 i).mp h with h1 | ⟨ht, ha⟩
      · exact Or.inl h1
      · cases hna : isNA ctx i
        · exact Or.inr (Reaches.root i ht ha hna)
        · exact Or.inl rfl
    · right
      induction h with
      | base r hr =>
        obtain ⟨ht, ha, _, hna⟩ := hrs r hr
        exact Reaches.root r ht ha hna
      | step s t hs he ha hv ih =>
        have hat : st.secAlive t = true := by
          rw [← (collect_le ctx st).alive t]; exact ha
        have hnat : isNA ctx t = false := by
          cases hna : isNA ctx t
          · rfl
          · rw [collect_NA ctx st hna] at hv; exact Bool.noConfusion hv
        exact Reaches.step s t ih he hat hnat
  · rintro (h | h)
    · exact Or.inl ((collect_char_vis ctx st H0 i).mpr (Or.inl h))
    · induction h with
      | root r ht ha hna =>
        right
        exact RF.base r ((collect_char_roots ctx st H0 r).mpr ⟨ht, ha, hna⟩)
      | step s t hs he hat hnat ih =>
        rcases ih with h1 | h1
        · rcases (collect_char_vis ctx st H0 s).mp h1 with h2 | ⟨ht2, ha2⟩
          · rw [reaches_not_NA hs] at h2
            exact Bool.noConfusion h2
          · have hsr : s ∈ (collect_root_set ctx st).2 :=
              (collect_char_roots ctx st H0 s).mpr ⟨ht2, ha2, reaches_not_NA hs⟩
            cases hvt : (collect_root_set ctx st).1.secVisited t
            · refine Or.inr (RF.step s t (RF.base s hsr) he ?_ hvt)
              rw [(collect_le ctx st).alive t]; exact hat
            · exact Or.inl rfl
        · cases hvt : (collect_root_set ctx st).1.secVisited t
          · refine Or.inr (RF.step s t h1 he ?_ hvt)
            rw [(collect_le ctx st).alive t]; exact hat
          · exact Or.inl rfl

/-- Claim C2: the sweep kills a listed section exactly when it is alive
and unvisited (unlisted sections and the visited flags are untouched, and
dead sections are skipped without effect), the garbage counter grows by
exactly the number of killed sections, and one diagnostic line per killed
section is recorded exactly when -print-gc-sections is set. -/
theorem claimC2_sweep_spec (ctx : Ctx) (st : GcState)
    (HN : (sectionIds ctx).Nodup) :
    (∀ i, (sweep ctx st).secAlive i =
      (st.secAlive i && (!(listedSec ctx i) || st.secVisited i))) ∧
    (∀ i, (sweep ctx st).secVisited i = st.secVisited i) ∧
    (∀ fr, (sweep ctx st).fragAlive fr = st.fragAlive fr) ∧
    (sweep ctx st).garbageSections = st.garbageSections + (killList ctx st).length ∧
    (sweep ctx st).gcLog =
      st.gcLog ++ (if ctx.printGcSections = true then killList ctx st else []) := by
  refine ⟨fun i => sweep_alive ctx st i, fun i => ?_, fun fr => ?_,
    (sweep_cnt ctx st HN).1, (sweep_cnt ctx st HN).2⟩
  · rw [sweep_vis]
  · rw [sweep_frag]

theorem claimC2_witness :
    (sweep c2Ctx c2St).secAlive 1 =
      (c2St.secAlive 1 && (!(listedSec c2Ctx 1) || c2St.secVisited 1)) ∧
    (sweep c2Ctx c2St).garbageSections =
      c2St.garbageSections + (killList c2Ctx c2St).length :=
  ⟨(claimC2_sweep_spec c2Ctx c2St (by decide)).1 1,
   (claimC2_sweep_spec c2Ctx c2St (by decide)).2.2.2.1⟩

/-- Claim C3: the mark primitive accepts exactly the non-null references
whose section is alive with the visited flag previously false; a reference
accepted once is rejected on any immediate retry (the test-and-set wrote
true), and the root vector collected by collect_root_set never repeats a
section. -/
theorem claimC3_mark_accept :
    (∀ (st : GcState) (os : Option Nat), (mark_section st os).1 = true ↔
      ∃ i, os = some i ∧ st.secAlive i = true ∧ st.secVisited i = false) ∧
    (∀ (st : GcState) (i : Nat),
      (mark_section ((mark_section st (some i)).2) (some i)).1 = false) ∧
    (∀ (ctx : Ctx) (st : GcState), ((collect_root_set ctx st).2).Nodup) := by
  refine ⟨fun st os => mark_section_fst_iff, fun st i => ?_,
    fun ctx st => (collect_inv ctx st).2.1⟩
  cases hc : (mark_section ((mark_section st (some i)).2) (some i)).1
  · rfl
  · exfalso
    obtain ⟨j, hj, ha, hv⟩ := mark_section_fst_iff.mp hc
    obtain rfl := Option.some.inj hj
    rw [(mark_section_le st (some i)).2.2.1] at ha
    rw [mark_section_visited_after ha] at hv
    exact Bool.noConfusion hv

theorem claimC3_witness :
    (mark_section c3St (some 0)).1 = true ∧
    (mark_section ((mark_section c3St (some 0)).2) (some 0)).1 = false ∧
    ((collect_root_set c3Ctx c3St).2).Nodup :=
  ⟨(claimC3_mark_accept.1 c3St (some 0)).mpr ⟨0, rfl, rfl, rfl⟩,
   claimC3_mark_accept.2.1 c3St 0,
   claimC3_mark_accept.2.2 c3Ctx c3St⟩

/-- Claim C4 as stated is false: a non-alloc section that is already dead
on entry (for example discarded by an earlier pass) is not resurrected, so
it is not alive after gc_sections. -/
theorem claimC4_counterexample :
    (secGet c4Ctx 0).alloc = false ∧ listedSec c4Ctx 0 = true ∧
    (gc_sections c4Ctx c4CexSt).secAlive 0 = false := by
  refine ⟨by decide, by decide, ?_⟩
  decide

/-- Claim C4 (amended): every listed section without the ALLOC flag that
is alive on entry to gc_sections is still alive after it returns: the root
collector sets its visited flag unconditionally, the mark phase never
clears aliveness, and the sweep keeps every visited section. -/
theorem claimC4_nonalloc_alive (ctx : Ctx) (st : GcState) (i : Nat)
    (Hl : listedSec ctx i = true) (Hna : (secGet ctx i).alloc = false)
    (Halive : st.secAlive i = true) :
    (gc_sections ctx st).secAlive i = true := by
  have hNA : isNA ctx i = true := isNA_iff.mpr ⟨Hl, Hna⟩
  have hvis : (mark ctx (collect_root_set ctx (mark_nonalloc_fragments ctx st)).2
      (collect_root_set ctx (mark_nonalloc_fragments ctx st)).1).secVisited i = true :=
    (markLoop_le ctx 3 _ _ _).1 i (collect_NA ctx (mark_nonalloc_fragments ctx st) hNA)
  rw [gc_eq, sweep_alive, Hl, (gc_le_mark ctx st).alive i, Halive, hvis]
  rfl

theorem claimC4_witness : (gc_sections c4Ctx c4WSt).secAlive 0 = true :=
  claimC4_nonalloc_alive c4Ctx c4WSt 0 (by decide) (by decide) (by decide)

/-- Claim C6: on a relocation edge the marker resolves the symbol; a
fragment-backed symbol only makes its fragment alive (the state changes by
exactly the fragment flag and nothing is enqueued), and only a
fragment-free symbol has its input section put through the mark primitive,
with the target enqueued exactly on acceptance. -/
theorem claimC6_frag_precedence (ctx : Ctx)
    (r? : Option (Nat → GcState → GcState × List Nat)) (fi : Nat)
    (acc : GcState × List Nat) (r : Nat) :
    (∀ fr, (resolveSym ctx fi r).frag = some fr →
      relStep ctx r? fi acc r = (setFrag acc.1 fr, acc.2)) ∧
    ((resolveSym ctx fi r).frag = none →
      (relStep ctx none fi acc r).1 =
        (mark_section acc.1 (resolveSym ctx fi r).inputSection).2 ∧
      ∀ t, (resolveSym ctx fi r).inputSection = some t →
        ((mark_section acc.1 (some t)).1 = true →
          (relStep ctx none fi acc r).2 = acc.2 ++ [t]) ∧
        ((mark_section acc.1 (some t)).1 = false →
          (relStep ctx none fi acc r).2 = acc.2)) := by
  refine ⟨fun fr h => relStep_of_frag h,
    fun hf => ⟨?_, fun t ht => ⟨fun hacc => ?_, fun hrej => ?_⟩⟩⟩
  · cases hm : (mark_section acc.1 (resolveSym ctx fi r).inputSection).1
    · rw [relStep_of_reject hf hm]
    · cases hos : (resolveSym ctx fi r).inputSection with
      | none =>
        rw [hos] at hm
        exact absurd hm (by simp [mark_section])
      | some t =>
        rw [hos] at hm
        rw [relStep_of_accept_none hf hos hm]
  · rw [relStep_of_accept_none hf ht hacc]
  · rw [relStep_of_reject hf (by rw [ht]; exact hrej)]

theorem claimC6_witness :
    relStep c6Ctx none 0 (c6St, ([] : List Nat)) 0 = (setFrag c6St 3, ([] : List Nat)) ∧
    (relStep c6Ctx none 0 (c6St, ([] : List Nat)) 1).2 = ([] : List Nat) ++ [0] :=
  ⟨(claimC6_frag_precedence c6Ctx none 0 (c6St, ([] : List Nat)) 0).1 3 (by decide),
   (((claimC6_frag_precedence c6Ctx none 0 (c6St, ([] : List Nat)) 1).2
       (by decide)).2 0 (by decide)).1 (by decide)⟩

/-- Claim C7: no resurrection: a section dead on entry to gc_sections is
still dead after it returns; neither the mark phase nor the sweep ever
sets a section's is_alive to true. -/
theorem claimC7_no_resurrection (ctx : Ctx) (st : GcState) (i : Nat)
    (Hdead : st.secAlive i = false) :
    (gc_sections ctx st).secAlive i = false := by
  rw [gc_eq, sweep_alive, (gc_le_mark ctx st).alive i, Hdead]
  rfl

theorem claimC7_witness : (gc_sections c7Ctx c7St).secAlive 0 = false :=
  claimC7_no_resurrection c7Ctx c7St 0 rfl

/-- Claim C10: after gc_sections every listed section that is alive is
also visited: the sweep kills exactly the alive-but-unvisited listed
sections and nothing clears a visited flag. -/
theorem claimC10_alive_implies_visited (ctx : Ctx) (st : GcState) (i : Nat)
    (Hl : listedSec ctx i = true)
    (Halive : (gc_sections ctx st).secAlive i = true) :
    (gc_sections ctx st).secVisited i = true := by
  rw [gc_eq, sweep_alive, Hl] at Halive
  rw [gc_eq, sweep_vis]
  simp only [Bool.not_true, Bool.false_or, Bool.and_eq_true] at Halive
  exact Halive.2

theorem claimC10_witness : (gc_sections c10Ctx c10St).secVisited 0 = true :=
  claimC10_alive_implies_visited c10Ctx c10St 0 (by decide) (by decide)

/-- Claim C1 as stated is false: a listed non-alloc section that is alive
on entry survives gc_sections although it is reachable from no root
through the marker's edges (the root collector visits it unconditionally,
outside the reachability relation). -/
theorem claimC1_counterexample :
    (gc_sections c1CexCtx c1CexSt).secAlive 0 = true ∧
    ¬ Reaches c1CexCtx c1CexSt.secAlive 0 := by
  constructor
  · decide
  · have hnt : ∀ j, trig c1CexCtx j = false := by
      intro j
      have hA : trigA c1CexCtx j = false := by
        cases hl : listedSec c1CexCtx j with
        | false => unfold trigA; rw [hl]; rfl
        | true =>
          have hj : j = 0 := by
            simpa [scanAItems, c1CexCtx] using listed_iff.mp hl
          subst hj
          decide
      unfold trig
      rw [hA]
      rfl
    have hgen : ∀ k, ¬ Reaches c1CexCtx c1CexSt.secAlive k := by
      intro k h
      induction h with
      | root i ht ha hna => rw [hnt i] at ht; exact Bool.noConfusion ht
      | step s t hs he hat hnat ih => exact ih
    exact hgen 0

/-- Claim C1 (amended): for a fresh run (no visited flag set on entry,
aliveness confined to the section table) and any listed section, the
section is alive after gc_sections iff it is reachable from a root
through the marker's three edge kinds, or it is a non-alloc section that
was alive on entry. -/
theorem claimC1_alive_iff_reachable (ctx : Ctx) (st : GcState)
    (H0 : ∀ j, st.secVisited j = false) (HA : HAlive ctx st) (i : Nat)
    (Hl : listedSec ctx i = true) :
    (gc_sections ctx st).secAlive i = true ↔
      (Reaches ctx st.secAlive i ∨
        ((secGet ctx i).alloc = false ∧ st.secAlive i = true)) := by
  have hms := mnf_same ctx st
  have H0b : ∀ j, (mark_nonalloc_fragments ctx st).secVisited j = false := by
    intro j; rw [hms.2.1]; exact H0 j
  have HAb : HAlive ctx (mark_nonalloc_fragments ctx st) :=
    HAlive_of_le (mnf_le ctx st) HA
  have hvis := mark_final_vis ctx (mark_nonalloc_fragments ctx st) H0b HAb i
  rw [hms.1] at hvis
  rw [gc_eq, sweep_alive, Hl, (gc_le_mark ctx st).alive i]
  simp only [Bool.not_true, Bool.false_or, Bool.and_eq_true]
  constructor
  · rintro ⟨ha, hv⟩
    rcases hvis.mp hv with hna | hr
    · exact Or.inr ⟨(isNA_iff.mp hna).2, ha⟩
    · exact Or.inl hr
  · rintro (hr | ⟨hna, ha⟩)
    · exact ⟨reaches_alive hr, hvis.mpr (Or.inr hr)⟩
    · exact ⟨ha, hvis.mpr (Or.inl (isNA_iff.mpr ⟨Hl, hna⟩))⟩

theorem claimC1_witness :
    (gc_sections c1WCtx c1WSt).secAlive 0 = true ↔
      (Reaches c1WCtx c1WSt.secAlive 0 ∨
        ((secGet c1WCtx 0).alloc = false ∧ c1WSt.secAlive 0 = true)) :=
  claimC1_alive_iff_reachable c1WCtx c1WSt (fun j => rfl)
    (by intro i hi
        have h2 : i = 0 := by simpa [c1WSt] using hi
        rw [h2]
        decide)
    0 (by decide)

/-- Claim C9: the inline-recursion allowance of visit is a pure
performance knob: draining the same worklist of already-visited sections
from the same state with allowance 3 (the source's bound) and with
allowance 0 (pure queue) gives the same final state, for any sufficient
fuels. -/
theorem claimC9_depth_bound_irrelevant (ctx : Ctx) (Q : List Nat) (st : GcState)
    (HA : HAlive ctx st) (HQ : ∀ x ∈ Q, st.secVisited x = true)
    (fuel fuel2 : Nat) (Hf : Q.length + uCount ctx st ≤ fuel)
    (Hf2 : Q.length + uCount ctx st ≤ fuel2) :
    markLoop ctx 3 fuel Q st = markLoop ctx 0 fuel2 Q st := by
  obtain ⟨le1, v1, f1⟩ := markLoop_spec ctx 3 fuel Q st HA HQ Hf
  obtain ⟨le2, v2, f2⟩ := markLoop_spec ctx 0 fuel2 Q st HA HQ Hf2
  apply GcState.ext
  · rw [le1.2.2.1, le2.2.2.1]
  · funext i
    have h12 := (v1 i).trans (v2 i).symm
    by_cases hb : (markLoop ctx 3 fuel Q st).secVisited i = true
    · rw [hb, h12.mp hb]
    · have hb2 : ¬ (markLoop ctx 0 fuel2 Q st).secVisited i = true :=
        fun hc => hb (h12.mpr hc)
      rw [Bool.not_eq_true] at hb hb2
      rw [hb, hb2]
  · funext fr
    have h12 := (f1 fr).trans (f2 fr).symm
    by_cases hb : (markLoop ctx 3 fuel Q st).fragAlive fr = true
    · rw [hb, h12.mp hb]
    · have hb2 : ¬ (markLoop ctx 0 fuel2 Q st).fragAlive fr = true :=
        fun hc => hb (h12.mpr hc)
      rw [Bool.not_eq_true] at hb hb2
      rw [hb, hb2]
  · rw [le1.2.2.2.1, le2.2.2.2.1]
  · rw [le1.2.2.2.2, le2.2.2.2.2]

theorem claimC9_witness :
    markLoop c9Ctx 3 2 [0] c9St = markLoop c9Ctx 0 2 [0] c9St :=
  claimC9_depth_bound_irrelevant c9Ctx [0] c9St
    (by intro i hi
        have h2 : i = 0 := by simpa [c9St] using hi
        rw [h2]
        decide)
    (by intro x hx
        have h2 : x = 0 := by simpa using hx
        rw [h2]
        rfl)
    2 2 (by decide) (by decide)

theorem setFrag_noop {st : GcState} {fr : Nat} (h : st.fragAlive fr = true) :
    setFrag st fr = st := by
  unfold setFrag
  rw [setTrue_noop h]

theorem setvis_noop {st : GcState} {i : Nat} (h : st.secVisited i = true) :
    { st with secVisited := setTrue st.secVisited i } = st := by
  rw [setTrue_noop h]

theorem foldl_fix {β α : Type} (f : β → α → β) (b : β) :
    ∀ l : List α, (∀ x ∈ l, f b x = b) → l.foldl f b = b := by
  intro l
  induction l with
  | nil => intro _; rfl
  | cons x xs ih =>
    intro h
    rw [List.foldl_cons, h x (List.mem_cons_self x xs)]
    exact ih (fun y hy => h y (List.mem_cons_of_mem x hy))

theorem mark_section_noop {st : GcState} {os : Option Nat}
    (h : ∀ i, os = some i → st.secAlive i = true → st.secVisited i = true) :
    (mark_section st os).2 = st := by
  cases os with
  | none => rfl
  | some i =>
    cases ha : st.secAlive i
    · simp [mark_section, ha]
    · show (if st.secAlive i then
        (!st.secVisited i, { st with secVisited := setTrue st.secVisited i })
        else (false, st)).2 = st
      rw [if_pos ha]
      exact setvis_noop (h i rfl ha)

theorem enqueue_section_noop {acc : GcState × List Nat} {os : Option Nat}
    (h : ∀ i, os = some i → acc.1.secAlive i = true → acc.1.secVisited i = true) :
    enqueue_section acc os = acc := by
  have h2 : (mark_section acc.1 os).1 = false := by
    cases hc : (mark_section acc.1 os).1
    · rfl
    · obtain ⟨i, hi, ha, hv⟩ := mark_section_fst_iff.mp hc
      rw [h i hi ha] at hv
      exact Bool.noConfusion hv
  have h3 : (mark_section acc.1 os).2 = acc.1 := mark_section_noop h
  have e1 : (enqueue_section acc os).1 = acc.1 := by
    rw [enqueue_section_state]
    exact h3
  have e2 : (enqueue_section acc os).2 = acc.2 := enqueue_section_out_reject h2
  exact Prod.ext e1 e2

theorem markLoop_nil (ctx : Ctx) (b fuel : Nat) (st : GcState) :
    markLoop ctx b fuel [] st = st := by
  cases fuel
  · rfl
  · rfl

theorem scanAStep_noop {ctx : Ctx} {st : GcState} {R : List Nat} {slot : Option Nat}
    (hmem : slot ∈ scanAItems ctx)
    (S1 : ∀ i, isNA ctx i = true → st.secVisited i = true)
    (S2 : ∀ i, trig ctx i = true → st.secAlive i = true → st.secVisited i = true) :
    scanAStep ctx (st, R) slot = (st, R) := by
  cases slot with
  | none => rfl
  | some i =>
    have hl : listedSec ctx i = true := listed_iff.mpr hmem
    have hst : (if !(secGet ctx i).alloc then
        { st with secVisited := setTrue st.secVisited i } else st) = st := by
      cases hal : (secGet ctx i).alloc
      · show ({ st with secVisited := setTrue st.secVisited i } : GcState) = st
        exact setvis_noop (S1 i (isNA_iff.mpr ⟨hl, hal⟩))
      · simp
    show (let sec := secGet ctx i
      let st2 := if !sec.alloc then
        { st with secVisited := setTrue st.secVisited i } else st
      if is_init_fini sec || sec.shType == SHT_NOTE then
        enqueue_section (st2, R) (some i)
      else (st2, R)) = (st, R)
    simp only [hst]
    cases htr : (is_init_fini (secGet ctx i) || (secGet ctx i).shType == SHT_NOTE)
    · rfl
    · have htA : trigA ctx i = true := by
        unfold trigA
        rw [hl, htr]
        rfl
      exact enqueue_section_noop (fun j hj ha => by
        obtain rfl := Option.some.inj hj.symm
        exact S2 j (trig_of_A htA) ha)

theorem scanA_noop {ctx : Ctx} {st : GcState} {R : List Nat}
    (S1 : ∀ i, isNA ctx i = true → st.secVisited i = true)
    (S2 : ∀ i, trig ctx i = true → st.secAlive i = true → st.secVisited i = true) :
    scanA ctx (st, R) = (st, R) := by
  rw [scanA_eq]
  exact foldl_fix _ _ _ (fun slot hslot => scanAStep_noop hslot S1 S2)

theorem scanBStep_noop {ctx : Ctx} {st : GcState} {R : List Nat} {pr : Nat × Nat}
    (hmem : pr ∈ scanBItems ctx)
    (S2 : ∀ i, trig ctx i = true → st.secAlive i = true → st.secVisited i = true)
    (S3 : ∀ fr, fragCandBC ctx fr = true → st.fragAlive fr = true) :
    scanBStep ctx pr.1 (st, R) pr.2 = (st, R) := by
  show (if ((symGet ctx pr.2).fileIdx == some pr.1 && (symGet ctx pr.2).isExported) = true
    then enqueue_symbol (st, R) (some (symGet ctx pr.2)) else (st, R)) = (st, R)
  cases hc : ((symGet ctx pr.2).fileIdx == some pr.1 && (symGet ctx pr.2).isExported)
  · rfl
  · rw [if_pos rfl]
    rw [Bool.and_eq_true] at hc
    obtain ⟨hfi, hex⟩ := hc
    rw [beq_iff_eq] at hfi
    have hes : enqueue_symbol (st, R) (some (symGet ctx pr.2)) =
        (match (symGet ctx pr.2).frag with
         | some fr => (setFrag st fr, R)
         | none => enqueue_section (st, R) (symGet ctx pr.2).inputSection) := rfl
    rw [hes]
    cases hfr : (symGet ctx pr.2).frag with
    | some fr =>
      show (setFrag st fr, R) = (st, R)
      rw [setFrag_noop (S3 fr (fragCandBC_iff.mpr (Or.inl ⟨pr, hmem, hfi, hex, hfr⟩)))]
    | none =>
      show enqueue_section (st, R) (symGet ctx pr.2).inputSection = (st, R)
      exact enqueue_section_noop (fun t ht ha =>
        S2 t (trig_of_B (trigB_iff.mpr ⟨pr, hmem, hfi, hex, hfr, ht⟩)) ha)

theorem scanB_noop {ctx : Ctx} {st : GcState} {R : List Nat}
    (S2 : ∀ i, trig ctx i = true → st.secAlive i = true → st.secVisited i = true)
    (S3 : ∀ fr, fragCandBC ctx fr = true → st.fragAlive fr = true) :
    scanB ctx (st, R) = (st, R) := by
  rw [scanB_eq]
  exact foldl_fix _ _ _ (fun pr hpr => scanBStep_noop hpr S2 S3)

theorem scanC_noop {ctx : Ctx} {st : GcState} {R : List Nat}
    (S2 : ∀ i, trig ctx i = true → st.secAlive i = true → st.secVisited i = true)
    (S3 : ∀ fr, fragCandBC ctx fr = true → st.fragAlive fr = true) :
    scanC ctx (st, R) = (st, R) := by
  rw [scanC_eq]
  refine foldl_fix _ _ _ (fun os hos => ?_)
  cases os with
  | none => rfl
  | some sid =>
    have hes : enqueue_symbol (st, R) (Option.map (symGet ctx) (some sid)) =
        (match (symGet ctx sid).frag with
         | some fr => (setFrag st fr, R)
         | none => enqueue_section (st, R) (symGet ctx sid).inputSection) := rfl
    rw [hes]
    cases hfr : (symGet ctx sid).frag with
    | some fr =>
      show (setFrag st fr, R) = (st, R)
      rw [setFrag_noop (S3 fr (fragCandBC_iff.mpr (Or.inr ⟨some sid, hos, sid, rfl, hfr⟩)))]
    | none =>
      show enqueue_section (st, R) (symGet ctx sid).inputSection = (st, R)
      exact enqueue_section_noop (fun t ht ha =>
        S2 t (trig_of_C (trigC_iff.mpr ⟨some sid, hos, sid, rfl, hfr, ht⟩)) ha)

theorem scanD_noop {ctx : Ctx} {st : GcState} {R : List Nat}
    (S2 : ∀ i, trig ctx i = true → st.secAlive i = true → st.secVisited i = true) :
    scanD ctx (st, R) = (st, R) := by
  rw [scanD_eq]
  refine foldl_fix _ _ _ (fun rsym hr => ?_)
  exact enqueue_section_noop (fun t ht ha => by
    have htD : trigD ctx t = true := trigD_iff.mpr ⟨rsym, hr, ht⟩
    exact S2 t (trig_of_D htD) ha)

theorem collect_noop {ctx : Ctx} {st : GcState}
    (S1 : ∀ i, isNA ctx i = true → st.secVisited i = true)
    (S2 : ∀ i, trig ctx i = true → st.secAlive i = true → st.secVisited i = true)
    (S3 : ∀ fr, fragCandBC ctx fr = true → st.fragAlive fr = true) :
    collect_root_set ctx st = (st, []) := by
  unfold collect_root_set
  rw [scanA_noop S1 S2, scanB_noop S2 S3, scanC_noop S2 S3, scanD_noop S2]

theorem sweep_noop {ctx : Ctx} {st : GcState}
    (S5 : ∀ i, listedSec ctx i = true → st.secAlive i = true → st.secVisited i = true) :
    sweep ctx st = st := by
  rw [sweep_eq]
  refine foldl_fix _ _ _ (fun i hi => ?_)
  have hl : listedSec ctx i = true := mem_sectionIds.mp hi
  cases ha : st.secAlive i
  · simp [sweepStep, ha]
  · simp [sweepStep, ha, S5 i hl ha]

theorem mnf_noop {ctx : Ctx} {st : GcState}
    (S4 : ∀ file ∈ ctx.objs, ∀ fr ∈ file.fragments,
      (fragGet ctx fr).outputAlloc = false → st.fragAlive fr = true) :
    mark_nonalloc_fragments ctx st = st := by
  rw [mnf_eq]
  refine foldl_fix _ _ _ (fun fr hfr => ?_)
  obtain ⟨l, hl, hfl⟩ := List.mem_flatten.mp hfr
  obtain ⟨file, hfile, rfl⟩ := List.mem_map.mp hl
  cases hal : (fragGet ctx fr).outputAlloc
  · simp only [hal, Bool.not_false, if_pos rfl]
    exact setFrag_noop (S4 file hfile fr hfl hal)
  · simp [hal]

theorem stable_noop {ctx : Ctx} {st : GcState} (hS : Stable ctx st) :
    gc_sections ctx st = st := by
  obtain ⟨S1, S2, S3, S4, S5⟩ := hS
  rw [gc_eq, mnf_noop S4, collect_noop S1 S2 S3]
  show sweep ctx (mark ctx [] st) = st
  have h3 : mark ctx [] st = st := by
    unfold mark
    exact markLoop_nil ctx 3 _ st
  rw [h3]
  exact sweep_noop S5

theorem gc_stable (ctx : Ctx) (st : GcState) : Stable ctx (gc_sections ctx st) := by
  have hms := mnf_same ctx st
  refine ⟨fun i hna => ?_, fun i htr hal => ?_, fun fr hc => ?_,
    fun file hfile fr hfr hna => ?_, fun i hl hal => ?_⟩
  · rw [gc_eq, sweep_vis]
    exact (markLoop_le ctx 3 _ _ _).1 i
      (collect_NA ctx (mark_nonalloc_fragments ctx st) hna)
  · rw [gc_eq, sweep_alive] at hal
    rw [Bool.and_eq_true] at hal
    obtain ⟨hma, -⟩ := hal
    rw [(gc_le_mark ctx st).alive i] at hma
    rw [gc_eq, sweep_vis]
    refine (markLoop_le ctx 3 _ _ _).1 i
      (collect_trig ctx (mark_nonalloc_fragments ctx st) htr ?_)
    rw [hms.1]
    exact hma
  · rw [gc_eq, sweep_frag]
    exact (markLoop_le ctx 3 _ _ _).2.1 fr
      (collect_fragBC ctx (mark_nonalloc_fragments ctx st) hc)
  · rw [gc_eq, sweep_frag]
    exact (markLoop_le ctx 3 _ _ _).2.1 fr
      ((collect_le ctx _).2.1 fr (mnf_cov hfile hfr hna))
  · rw [gc_eq, sweep_alive, hl] at hal
    simp only [Bool.not_true, Bool.false_or, Bool.and_eq_true] at hal
    rw [gc_eq, sweep_vis]
    exact hal.2

/-- Claim C8: gc_sections is idempotent: a second run on the state a
first run produced changes nothing: no section's is_alive or is_visited
flag transitions, no fragment's is_alive transitions, and the counter and
the diagnostic log are untouched. -/
theorem claimC8_idempotent (ctx : Ctx) (st : GcState) :
    gc_sections ctx (gc_sections ctx st) = gc_sections ctx st :=
  stable_noop (gc_stable ctx st)

/-- Claim C5: the marker walks each FDE's relocations only from index 1
(subspan(1)); the target of an FDE's rels[0] is never marked through that
FDE.  Stated observationally: two contexts that agree everywhere except
possibly on the heads of their FDE relocation lists make gc_sections
produce identical results from every state. -/
theorem claimC5_fde_heads_ignored (ctxa ctxb : Ctx)
    (hobjs : ctxa.objs = ctxb.objs) (hsyms : ctxa.symbols = ctxb.symbols)
    (hfrags : ctxa.frags = ctxb.frags) (hent : ctxa.entrySym = ctxb.entrySym)
    (hund : ctxa.undefinedSyms = ctxb.undefinedSyms)
    (hprint : ctxa.printGcSections = ctxb.printGcSections)
    (hlen : ctxa.sections.length = ctxb.sections.length)
    (hsec : ∀ i, sameExceptFdeHeads (secGet ctxa i) (secGet ctxb i))
    (st : GcState) :
    gc_sections ctxa st = gc_sections ctxb st := by
  have hsymf : symGet ctxa = symGet ctxb := by
    funext s
    unfold symGet
    rw [hsyms]
  have hfilef : fileGet ctxa = fileGet ctxb := by
    funext f
    unfold fileGet
    rw [hobjs]
  have hfragf : fragGet ctxa = fragGet ctxb := by
    funext f
    unfold fragGet
    rw [hfrags]
  have hresf : resolveSym ctxa = resolveSym ctxb := by
    funext fi r
    unfold resolveSym
    rw [hfilef, hsymf]
  have halloc : ∀ i, (secGet ctxa i).alloc = (secGet ctxb i).alloc :=
    fun i => (hsec i).1
  have hsT : ∀ i, (secGet ctxa i).shType = (secGet ctxb i).shType :=
    fun i => (hsec i).2.1
  have hnm : ∀ i, (secGet ctxa i).name = (secGet ctxb i).name :=
    fun i => (hsec i).2.2.1
  have hfI : ∀ i, (secGet ctxa i).fileIdx = (secGet ctxb i).fileIdx :=
    fun i => (hsec i).2.2.2.1
  have hrF : ∀ i, (secGet ctxa i).relFragments = (secGet ctxb i).relFragments :=
    fun i => (hsec i).2.2.2.2.1
  have hrels : ∀ i, (secGet ctxa i).rels = (secGet ctxb i).rels :=
    fun i => (hsec i).2.2.2.2.2.1
  have hfdes : ∀ i, (secGet ctxa i).fdes.map (fun f => f.rels.drop 1) =
      (secGet ctxb i).fdes.map (fun f => f.rels.drop 1) :=
    fun i => (hsec i).2.2.2.2.2.2
  have hinif : ∀ i, is_init_fini (secGet ctxa i) = is_init_fini (secGet ctxb i) := by
    intro i
    unfold is_init_fini
    rw [hsT i, hnm i]
  have hehf : ehMarkStep ctxa = ehMarkStep ctxb := by
    funext acc rsym
    unfold ehMarkStep
    rw [hsymf]
  have hrelf : ∀ r?, relStep ctxa r? = relStep ctxb r? := by
    intro r?
    funext fi acc r
    unfold relStep
    rw [hresf]
  have hvbody : ∀ r? i st0, visitBody ctxa r? i st0 = visitBody ctxb r? i st0 := by
    intro r? i st0
    show (secGet ctxa i).rels.foldl (relStep ctxa r? (secGet ctxa i).fileIdx)
        ((secGet ctxa i).fdes.foldl (fdeStep ctxa)
          (markFragList st0 (secGet ctxa i).relFragments, [])) =
      (secGet ctxb i).rels.foldl (relStep ctxb r? (secGet ctxb i).fileIdx)
        ((secGet ctxb i).fdes.foldl (fdeStep ctxb)
          (markFragList st0 (secGet ctxb i).relFragments, []))
    rw [fdeFold_eq ctxa, fdeFold_eq ctxb, hfdes i, hehf, hrels i, hfI i, hrelf r?, hrF i]
  have hvgo : ∀ fuel i st0, visitGo ctxa fuel i st0 = visitGo ctxb fuel i st0 := by
    intro fuel
    induction fuel with
    | zero => intro i st0; exact hvbody none i st0
    | succ n ih =>
      intro i st0
      show visitBody ctxa (some (fun t s => visitGo ctxa n t s)) i st0 =
        visitBody ctxb (some (fun t s => visitGo ctxb n t s)) i st0
      have hrec : (fun t s => visitGo ctxa n t s) = (fun t s => visitGo ctxb n t s) := by
        funext t s
        exact ih t s
      rw [hrec]
      exact hvbody _ i st0
  have hvgf : visitGo ctxa = visitGo ctxb := by
    funext fuel i st0
    exact hvgo fuel i st0
  have hml : ∀ fuel b Q st0, markLoop ctxa b fuel Q st0 = markLoop ctxb b fuel Q st0 := by
    intro fuel
    induction fuel with
    | zero => intro b Q st0; rfl
    | succ n ih =>
      intro b Q st0
      cases Q with
      | nil => rfl
      | cons q rest =>
        show markLoop ctxa b n (rest ++ (visitGo ctxa b q st0).2) (visitGo ctxa b q st0).1 =
          markLoop ctxb b n (rest ++ (visitGo ctxb b q st0).2) (visitGo ctxb b q st0).1
        rw [hvgf]
        exact ih b _ _
  have hstepAf : scanAStep ctxa = scanAStep ctxb := by
    funext acc slot
    cases slot with
    | none => rfl
    | some i => simp only [scanAStep, halloc i, hinif i, hsT i]
  have hscanAf : scanA ctxa = scanA ctxb := by
    funext acc
    have hitemsA : scanAItems ctxa = scanAItems ctxb := by
      unfold scanAItems
      rw [hobjs]
    rw [scanA_eq, scanA_eq, hitemsA, hstepAf]
  have hscanBf : scanB ctxa = scanB ctxb := by
    funext acc
    have hitB : scanBItems ctxa = scanBItems ctxb := by
      unfold scanBItems
      rw [hobjs]
    have hstepBf : ∀ fi, scanBStep ctxa fi = scanBStep ctxb fi := by
      intro fi
      funext a sid
      unfold scanBStep
      rw [hsymf]
    have hstep : (fun (a : GcState × List Nat) (pr : Nat × Nat) => scanBStep ctxa pr.1 a pr.2) =
        (fun a pr => scanBStep ctxb pr.1 a pr.2) := by
      funext a pr
      rw [hstepBf pr.1]
    rw [scanB_eq, scanB_eq, hitB, hstep]
  have hscanCf : scanC ctxa = scanC ctxb := by
    funext acc
    unfold scanC
    rw [hent, hund, hsymf]
  have hscanDf : scanD ctxa = scanD ctxb := by
    funext acc
    unfold scanD
    rw [hobjs, hsymf]
  have hcoll : collect_root_set ctxa = collect_root_set ctxb := by
    funext st0
    unfold collect_root_set
    rw [hscanAf, hscanBf, hscanCf, hscanDf]
  have hsweepf : sweep ctxa = sweep ctxb := by
    funext st0
    have hss : sweepStep ctxa = sweepStep ctxb := by
      funext s slot
      unfold sweepStep
      rw [hprint]
    unfold sweep
    rw [hobjs, hss]
  have hmnff : mark_nonalloc_fragments ctxa = mark_nonalloc_fragments ctxb := by
    funext st0
    unfold mark_nonalloc_fragments
    rw [hobjs, hfragf]
  have hmarkf : mark ctxa = mark ctxb := by
    funext roots st0
    unfold mark
    rw [hlen]
    exact hml _ 3 roots st0
  rw [gc_eq ctxa st, gc_eq ctxb st, hmnff, hcoll, hmarkf, hsweepf]

theorem claimC5_witness : gc_sections c5Ctx2 c5St = gc_sections c5Ctx1 c5St :=
  claimC5_fde_heads_ignored c5Ctx2 c5Ctx1 rfl rfl rfl rfl rfl rfl rfl
    (by intro i
        match i with
        | 0 => exact ⟨rfl, rfl, rfl, rfl, rfl, rfl, rfl⟩
        | 1 => exact ⟨rfl, rfl, rfl, rfl, rfl, rfl, rfl⟩
        | n + 2 => exact ⟨rfl, rfl, rfl, rfl, rfl, rfl, rfl⟩)
    c5St

end Mold
